import Mathlib

/-!
Verification of the Snake game engine and its AI player (snake_game.py).

The Python source is embedded shallowly: cells are integer pairs, the snake
body is a head-first list, dictionaries are partial maps, the heapq frontier
is a list popped at its minimum in Python's tuple order, and random.choice
is an arbitrary selection function constrained by the hypothesis that it
picks an element of its argument.  The two while loops of the AI (the A*
frontier loop and the flood-fill loop) are modeled with an explicit fuel
parameter; the fuel bounds used by the definitions are proved sufficient,
so the fuel-exhaustion branch is unreachable.
-/

namespace Snake

/-- Board cell: an integer pair (x, y), as in the Python tuples. -/
abbrev Pos := Int × Int

/-- Python enum Direction with its four unit deltas. -/
inductive Direction where
  | UP | DOWN | LEFT | RIGHT
deriving DecidableEq

/-- Direction.value: UP = (0,-1), DOWN = (0,1), LEFT = (-1,0), RIGHT = (1,0). -/
def Direction.value : Direction → Int × Int
  | .UP => (0, -1)
  | .DOWN => (0, 1)
  | .LEFT => (-1, 0)
  | .RIGHT => (1, 0)

/-- Python enum GameState. -/
inductive GameState where
  | PLAYING | PAUSED | GAME_OVER | QUIT
deriving DecidableEq

/-- Mutable attributes of the Python class SnakeGame.  The snake deque is a
head-first list; food is none when the board is full. -/
structure Game where
  width : Nat
  height : Nat
  snake : List Pos
  direction : Direction
  next_direction : Direction
  food : Option Pos
  score : Nat
  state : GameState
  moves_without_food : Nat
  max_moves_without_food : Nat
deriving DecidableEq

/-- Cells not occupied by the snake, in the x-major order of the two nested
loops of SnakeGame.generate_food. -/
def emptyPositions (width height : Nat) (snake : List Pos) : List Pos :=
  (List.range width).flatMap fun (x : Nat) =>
    ((List.range height).map fun (y : Nat) => (((x : Int), (y : Int)) : Pos)).filter
      fun p => decide (p ∉ snake)

/-- SnakeGame.generate_food.  Python's random.choice is modeled by the
selection function pick (theorems only assume pick l ∈ l for l ≠ []).  The
Python method stores its result in self.food and sets GAME_OVER on a full
board; both effects are part of the returned state here. -/
def generate_food (pick : List Pos → Pos) (g : Game) : Game :=
  let empty_positions := emptyPositions g.width g.height g.snake
  if empty_positions = [] then { g with state := GameState.GAME_OVER, food := none }
  else { g with food := some (pick empty_positions) }

/-- SnakeGame.reset_game: 2-cell snake at the center, direction RIGHT, fresh
food, zeroed counters.  Python assigns score, state and the counters after
the generate_food call, so they overwrite whatever generate_food set. -/
def reset_game (pick : List Pos → Pos) (width height : Nat) : Game :=
  let center_x : Int := ((width / 2 : Nat) : Int)
  let center_y : Int := ((height / 2 : Nat) : Int)
  let g1 := generate_food pick
    { width := width, height := height,
      snake := [(center_x, center_y), (center_x - 1, center_y)],
      direction := Direction.RIGHT, next_direction := Direction.RIGHT,
      food := none, score := 0, state := GameState.PLAYING,
      moves_without_food := 0, max_moves_without_food := 0 }
  { g1 with score := 0, state := GameState.PLAYING,
            moves_without_food := 0, max_moves_without_food := width * height }

/-- SnakeGame.is_valid_direction_change: a candidate is valid iff its delta
is not the additive inverse of the current direction's delta. -/
def is_valid_direction_change (g : Game) (new_direction : Direction) : Bool :=
  let current := g.direction.value
  let nxt := new_direction.value
  decide ((current.1 + nxt.1, current.2 + nxt.2) ≠ ((0 : Int), (0 : Int)))

/-- SnakeGame.change_direction: queue the direction only when valid. -/
def change_direction (g : Game) (new_direction : Direction) : Game :=
  if is_valid_direction_change g new_direction then { g with next_direction := new_direction }
  else g

/-- Direction resolution at the start of SnakeGame.update: adopt the queued
direction unless it reverses the current one. -/
def applyDirection (g : Game) : Game :=
  if is_valid_direction_change g g.next_direction then { g with direction := g.next_direction }
  else g

/-- New head computed by SnakeGame.update: current head plus the resolved
direction's unit delta. -/
def nextHead (g : Game) : Pos :=
  let g1 := applyDirection g
  let head := g1.snake.headI
  (head.1 + g1.direction.value.1, head.2 + g1.direction.value.2)

/-- SnakeGame.update: one game step (direction resolution, wall and self
collision, growth, food consumption, tail removal, starvation guard). -/
def update (pick : List Pos → Pos) (g : Game) : Game :=
  if g.state ≠ GameState.PLAYING then g
  else
    let g1 := applyDirection g
    let new_head := nextHead g
    if new_head.1 < 0 ∨ (g1.width : Int) ≤ new_head.1 ∨
        new_head.2 < 0 ∨ (g1.height : Int) ≤ new_head.2 then
      { g1 with state := GameState.GAME_OVER }
    else if new_head ∈ g1.snake then
      { g1 with state := GameState.GAME_OVER }
    else
      let g2 := { g1 with snake := new_head :: g1.snake }
      if g2.food = some new_head then
        generate_food pick { g2 with score := g2.score + 1, moves_without_food := 0 }
      else
        let g4 := { g2 with snake := g2.snake.dropLast,
                            moves_without_food := g2.moves_without_food + 1 }
        if g4.max_moves_without_food < g4.moves_without_food then
          { g4 with state := GameState.GAME_OVER }
        else g4

/-- AIPlayer.get_neighbors: the in-bounds, snake-free 4-neighbors of pos, in
the delta order (0,1), (0,-1), (1,0), (-1,0) of the Python loop. -/
def get_neighbors (width height : Nat) (snake : List Pos) (pos : Pos) : List Pos :=
  (([((0 : Int), (1 : Int)), (0, -1), (1, 0), (-1, 0)]).map
      fun d => ((pos.1 + d.1, pos.2 + d.2) : Pos)).filter
    fun q => decide (0 ≤ q.1 ∧ q.1 < (width : Int) ∧ 0 ≤ q.2 ∧ q.2 < (height : Int) ∧
      q ∉ snake)

/-- AIPlayer.manhattan_distance. -/
def manhattan_distance (pos1 pos2 : Pos) : Nat :=
  (pos1.1 - pos2.1).natAbs + (pos1.2 - pos2.2).natAbs

/-- Mutable state of the A* search: the heapq frontier as a list and the
three Python dicts as partial maps. -/
structure AStarState where
  open_set : List (Nat × Pos)
  came_from : Pos → Option Pos
  g_score : Pos → Option Nat
  f_score : Pos → Option Nat

/-- Dictionary update d[k] = v. -/
def setMap {α : Type} (m : Pos → Option α) (k : Pos) (v : α) : Pos → Option α :=
  fun p => if p = k then some v else m p

/-- Order on heap entries: Python compares the tuples (f, (x, y))
lexicographically, so heappop returns the minimum in this order. -/
def entryLe (a b : Nat × Pos) : Prop :=
  a.1 < b.1 ∨ (a.1 = b.1 ∧ (a.2.1 < b.2.1 ∨ (a.2.1 = b.2.1 ∧ a.2.2 ≤ b.2.2)))

instance (a b : Nat × Pos) : Decidable (entryLe a b) := by
  unfold entryLe; infer_instance

/-- Smallest entry of the frontier (what heapq.heappop returns). -/
def minEntry (l : List (Nat × Pos)) : Option (Nat × Pos) :=
  match l with
  | [] => none
  | e :: es => some (es.foldl (fun a b => if entryLe a b then a else b) e)

/-- Path reconstruction loop of AIPlayer.a_star_pathfind: follow came_from
from the popped goal, appending each visited cell, and reverse at the end.
The fuel models the while loop and is proved sufficient below. -/
def reconstructPath (came_from : Pos → Option Pos) : Nat → Pos → List Pos → Option (List Pos)
  | 0, _, _ => none
  | fuel + 1, current, path =>
    match came_from current with
    | some prev => reconstructPath came_from fuel prev (path ++ [current])
    | none => some path.reverse

/-- Body of the for-neighbor loop of AIPlayer.a_star_pathfind: tentative g
value, improvement test, dict updates and heap push. -/
def relaxNeighbor (goal current : Pos) (σ : AStarState) (neighbor : Pos) : AStarState :=
  let tentative_g_score := (σ.g_score current).getD 0 + 1
  let doUpd : AStarState :=
    { σ with
      came_from := setMap σ.came_from neighbor current,
      g_score := setMap σ.g_score neighbor tentative_g_score,
      f_score := setMap σ.f_score neighbor
        (tentative_g_score + manhattan_distance neighbor goal),
      open_set := (tentative_g_score + manhattan_distance neighbor goal, neighbor) ::
        σ.open_set }
  match σ.g_score neighbor with
  | none => doUpd
  | some gn => if tentative_g_score < gn then doUpd else σ

/-- One pass over all neighbors of the popped node. -/
def relaxAll (width height : Nat) (snake : List Pos) (goal current : Pos)
    (σ : AStarState) : AStarState :=
  (get_neighbors width height snake current).foldl (relaxNeighbor goal current) σ

/-- Fuel bound for the reconstruction loop, proved sufficient below. -/
def reconFuel (width height : Nat) : Nat := width * height + 2

/-- Main while loop of AIPlayer.a_star_pathfind: pop the minimum entry,
return the reconstructed path at the goal, otherwise relax the neighbors.
none is returned only on fuel exhaustion, proved unreachable for astarFuel. -/
def aStarLoop (width height : Nat) (snake : List Pos) (goal : Pos) :
    Nat → AStarState → Option (List Pos)
  | 0, _ => none
  | fuel + 1, σ =>
    match minEntry σ.open_set with
    | none => some []
    | some e =>
      let current := e.2
      let σ1 : AStarState := { σ with open_set := σ.open_set.erase e }
      if current = goal then
        reconstructPath σ1.came_from (reconFuel width height) current []
      else
        aStarLoop width height snake goal fuel (relaxAll width height snake goal current σ1)

/-- Fuel bound for the A* loop, proved sufficient below. -/
def astarFuel (width height : Nat) : Nat :=
  2 * (width * height + 1) * (width * height + 2) + 2

/-- Initial A* state: frontier [(0, start)], g_score {start: 0},
f_score {start: h(start, goal)}, empty came_from. -/
def aStarInit (start goal : Pos) : AStarState :=
  { open_set := [(0, start)],
    came_from := fun _ => none,
    g_score := setMap (fun _ => none) start 0,
    f_score := setMap (fun _ => none) start (manhattan_distance start goal) }

/-- AIPlayer.a_star_pathfind. -/
def a_star_pathfind (width height : Nat) (snake : List Pos) (start goal : Pos) : List Pos :=
  (aStarLoop width height snake goal (astarFuel width height) (aStarInit start goal)).getD []

/-- Body of the for-neighbor loop in AIPlayer.count_accessible_spaces: an
unvisited neighbor is added to the visited set and to the queue. -/
def bfsStep (vq : List Pos × List Pos) (neighbor : Pos) : List Pos × List Pos :=
  if neighbor ∈ vq.1 then vq else (vq.1 ++ [neighbor], vq.2 ++ [neighbor])

/-- While loop of AIPlayer.count_accessible_spaces: the visited set as a
duplicate-free list, the deque as a list consumed from the front.  The fuel
models the while loop and is proved sufficient below. -/
def countLoop (width height : Nat) (snake : List Pos) :
    Nat → List Pos → List Pos → Option (List Pos)
  | 0, _, _ => none
  | fuel + 1, visited, queue =>
    match queue with
    | [] => some visited
    | pos :: rest =>
      let step := (get_neighbors width height snake pos).foldl bfsStep (visited, rest)
      countLoop width height snake fuel step.1 step.2

/-- Fuel bound for the flood-fill loop, proved sufficient below. -/
def bfsFuel (width height : Nat) : Nat := 2 * (width * height + 1) + 2

/-- AIPlayer.count_accessible_spaces: size of the BFS flood fill from
start_pos (the 0 default is dead code by the fuel-sufficiency theorem). -/
def count_accessible_spaces (width height : Nat) (snake : List Pos) (start_pos : Pos) : Nat :=
  match countLoop width height snake (bfsFuel width height) [start_pos] [start_pos] with
  | some visited => visited.length
  | none => 0

/-- Candidate list of AIPlayer.get_safe_direction, in enumeration order
Up, Down, Left, Right. -/
def safeDirections : List (Int × Int) := [(0, -1), (0, 1), (-1, 0), (1, 0)]

/-- Legality test of one candidate in AIPlayer.get_safe_direction: the
resulting cell is in bounds and not on the snake. -/
def safeLegal (width height : Nat) (snake : List Pos) (head d : Int × Int) : Prop :=
  0 ≤ head.1 + d.1 ∧ head.1 + d.1 < (width : Int) ∧
    0 ≤ head.2 + d.2 ∧ head.2 + d.2 < (height : Int) ∧
    ((head.1 + d.1, head.2 + d.2) : Pos) ∉ snake

instance (width height : Nat) (snake : List Pos) (head d : Int × Int) :
    Decidable (safeLegal width height snake head d) := by
  unfold safeLegal; infer_instance

/-- Flood-fill score of one candidate of AIPlayer.get_safe_direction. -/
def safeScore (width height : Nat) (snake : List Pos) (head d : Int × Int) : Nat :=
  count_accessible_spaces width height snake (head.1 + d.1, head.2 + d.2)

/-- Body of the candidate loop of AIPlayer.get_safe_direction: keep the
running best direction and its space count, replacing on strictly greater. -/
def safeStep (width height : Nat) (snake : List Pos) (head : Int × Int)
    (acc : Option (Int × Int) × Int) (direction : Int × Int) : Option (Int × Int) × Int :=
  if safeLegal width height snake head direction then
    if (safeScore width height snake head direction : Int) > acc.2 then
      (some direction, (safeScore width height snake head direction : Int))
    else acc
  else acc

/-- AIPlayer.get_safe_direction: among the legal candidates, the first one
(in Up, Down, Left, Right order) attaining the maximal flood-fill count,
starting from best = None and max_space = -1. -/
def get_safe_direction (width height : Nat) (snake : List Pos) : Option (Int × Int) :=
  let head := snake.headI
  (safeDirections.foldl (safeStep width height snake head) (none, -1)).1

/-- Cell lies inside the width × height board. -/
def InBounds (width height : Nat) (p : Pos) : Prop :=
  0 ≤ p.1 ∧ p.1 < (width : Int) ∧ 0 ≤ p.2 ∧ p.2 < (height : Int)

instance (width height : Nat) (p : Pos) : Decidable (InBounds width height p) := by
  unfold InBounds; infer_instance

/-- Cell is in bounds and not occupied by the snake. -/
def FreeCell (width height : Nat) (snake : List Pos) (p : Pos) : Prop :=
  InBounds width height p ∧ p ∉ snake

instance (width height : Nat) (snake : List Pos) (p : Pos) :
    Decidable (FreeCell width height snake p) := by
  unfold FreeCell; infer_instance

/-- Two cells are 4-adjacent (unit delta in one coordinate). -/
def IsAdjacent (p q : Pos) : Prop :=
  q = (p.1, p.2 + 1) ∨ q = (p.1, p.2 - 1) ∨ q = (p.1 + 1, p.2) ∨ q = (p.1 - 1, p.2)

/-- ValidPath s l t: l is a start-excluded path from s to t in the search
graph of the pathfinder; each cell of l is a free in-bounds 4-neighbor of
its predecessor and the last cell is t ([] means s = t).  The start cell
itself is not required to be free, exactly as in the source. -/
def ValidPath (width height : Nat) (snake : List Pos) : Pos → List Pos → Pos → Prop
  | s, [], t => s = t
  | s, c :: rest, t => c ∈ get_neighbors width height snake s ∧ ValidPath width height snake c rest t

/-- Modelled from the spec ("verify by brute-force BFS on small boards",
a procedure absent from the source): level sets of the reference
breadth-first search; specReach n holds the cells reachable from start in
at most n steps through free cells. -/
def specReach (width height : Nat) (snake : List Pos) (start : Pos) : Nat → Finset Pos
  | 0 => {start}
  | n + 1 =>
    specReach width height snake start n ∪
      (specReach width height snake start n).biUnion
        fun p => (get_neighbors width height snake p).toFinset

/-- Modelled from the spec: scan for the first BFS level containing the
goal, starting the scan at level n. -/
def bfsSearch (width height : Nat) (snake : List Pos) (start goal : Pos) :
    Nat → Nat → Option Nat
  | 0, _ => none
  | fuel + 1, n =>
    if goal ∈ specReach width height snake start n then some n
    else bfsSearch width height snake start goal fuel (n + 1)

/-- Modelled from the spec: the reference BFS distance, i.e. the length of
the shortest in-bounds snake-avoiding 4-connected path from start to goal,
none when the goal is unreachable. -/
def specBFSDistance (width height : Nat) (snake : List Pos) (start goal : Pos) : Option Nat :=
  bfsSearch width height snake start goal (width * height + 2) 0

/-- All board cells as a finite set. -/
def boardFinset (width height : Nat) : Finset Pos :=
  ((Finset.range width) ×ˢ (Finset.range height)).image
    fun xy => (((xy.1 : Int), (xy.2 : Int)) : Pos)

/-- Cells that can ever receive a g_score: the board cells plus the start. -/
def keyCells (width height : Nat) (start : Pos) : Finset Pos :=
  insert start (boardFinset width height)

/-- Weight of one cell in the A* termination measure: large while its
g_score is unset, then twice the current value (g values only decrease). -/
def gWeight (width height : Nat) (σ : AStarState) (p : Pos) : Nat :=
  match σ.g_score p with
  | none => 2 * (width * height + 2)
  | some v => 2 * v

/-- Termination measure of the A* loop: every iteration strictly decreases it. -/
def aMeasure (width height : Nat) (start : Pos) (σ : AStarState) : Nat :=
  σ.open_set.length + Finset.sum (keyCells width height start) (gWeight width height σ)

/-- Termination measure of the flood-fill loop: twice the number of key
cells not yet visited, plus the queue length. -/
def cMeasure (width height : Nat) (start : Pos) (visited queue : List Pos) : Nat :=
  2 * ((keyCells width height start).card -
    ((keyCells width height start).filter fun c => c ∈ visited).card) + queue.length

/-- Data invariants of the A* loop state. -/
structure AInv (width height : Nat) (snake : List Pos) (start : Pos) (σ : AStarState) : Prop where
  g_start : σ.g_score start = some 0
  cf_start : σ.came_from start = none
  dom_free : ∀ p, (σ.g_score p).isSome → p = start ∨ FreeCell width height snake p
  open_dom : ∀ e ∈ σ.open_set, ∃ v, σ.g_score e.2 = some v ∧ v ≤ e.1
  g_path : ∀ p v, σ.g_score p = some v →
    ∃ l, ValidPath width height snake start l p ∧ l.length ≤ v
  cf_none_start : ∀ p, (σ.g_score p).isSome → σ.came_from p = none → p = start
  cf_step : ∀ p q, σ.came_from p = some q →
    p ∈ get_neighbors width height snake q ∧
      ∃ vp vq, σ.g_score p = some vp ∧ σ.g_score q = some vq ∧ vq + 1 ≤ vp
  g_card : ∀ p v, σ.g_score p = some v →
    v + 1 ≤ ((keyCells width height start).filter fun c => (σ.g_score c).isSome).card

/-- Goal-tracking invariant: while the loop is still running, a set g_score
at the goal implies a pending frontier entry at the goal. -/
def GoalInv (goal : Pos) (σ : AStarState) : Prop :=
  (σ.g_score goal).isSome → ∃ f, (f, goal) ∈ σ.open_set

/-- Cell number i of the path start :: π (i ranges over 0..π.length). -/
def pathCell (start : Pos) (π : List Pos) (i : Nat) : Pos :=
  (start :: π).getD i (0, 0)

/-- Optimality invariant along a fixed shortest path π from start to the
goal: whenever cell i of π carries its optimal g value i, either cell i+1
already carries i+1, or an entry for cell i with f at most i + h(cell i)
is still pending in the frontier. -/
def OptInv (goal start : Pos) (π : List Pos) (σ : AStarState) : Prop :=
  ∀ i, i < π.length → σ.g_score (pathCell start π i) = some i →
    σ.g_score (pathCell start π (i + 1)) = some (i + 1) ∨
      ∃ f, (f, pathCell start π i) ∈ σ.open_set ∧
        f ≤ i + manhattan_distance (pathCell start π i) goal

/-- Concrete selection function for examples: random.choice replaced by
taking the first free cell. -/
def pickHead : List Pos → Pos := fun l => l.headI

/-- Example state: mid-board snake moving right, used for the direction
claims. -/
def exampleGame1 : Game :=
  { width := 4, height := 4, snake := [(2, 2), (1, 2)],
    direction := Direction.RIGHT, next_direction := Direction.RIGHT,
    food := some (0, 0), score := 0, state := GameState.PLAYING,
    moves_without_food := 0, max_moves_without_food := 16 }

/-- Example state: head on the right edge moving right, about to hit the
wall. -/
def exampleGame2 : Game :=
  { width := 2, height := 2, snake := [(1, 0), (0, 0)],
    direction := Direction.RIGHT, next_direction := Direction.RIGHT,
    food := some (0, 1), score := 0, state := GameState.PLAYING,
    moves_without_food := 0, max_moves_without_food := 4 }

/-- Example state: food directly in front of the head. -/
def exampleGame3 : Game :=
  { width := 3, height := 3, snake := [(1, 1), (0, 1)],
    direction := Direction.RIGHT, next_direction := Direction.RIGHT,
    food := some (2, 1), score := 0, state := GameState.PLAYING,
    moves_without_food := 0, max_moves_without_food := 9 }

/-- Example state: one-cell snake taking an ordinary step. -/
def exampleGame4 : Game :=
  { width := 2, height := 2, snake := [(0, 0)],
    direction := Direction.RIGHT, next_direction := Direction.RIGHT,
    food := some (0, 1), score := 0, state := GameState.PLAYING,
    moves_without_food := 0, max_moves_without_food := 4 }

/-- Example state: 1 by 2 board with a single free cell. -/
def exampleGame5 : Game :=
  { width := 1, height := 2, snake := [(0, 0)],
    direction := Direction.RIGHT, next_direction := Direction.RIGHT,
    food := none, score := 0, state := GameState.PLAYING,
    moves_without_food := 0, max_moves_without_food := 2 }

/-! ### Field bookkeeping for the engine -/

@[simp] lemma applyDirection_width (g : Game) : (applyDirection g).width = g.width := by
  unfold applyDirection; split <;> rfl

@[simp] lemma applyDirection_height (g : Game) : (applyDirection g).height = g.height := by
  unfold applyDirection; split <;> rfl

@[simp] lemma applyDirection_snake (g : Game) : (applyDirection g).snake = g.snake := by
  unfold applyDirection; split <;> rfl

@[simp] lemma applyDirection_food (g : Game) : (applyDirection g).food = g.food := by
  unfold applyDirection; split <;> rfl

@[simp] lemma applyDirection_score (g : Game) : (applyDirection g).score = g.score := by
  unfold applyDirection; split <;> rfl

@[simp] lemma applyDirection_state (g : Game) : (applyDirection g).state = g.state := by
  unfold applyDirection; split <;> rfl

@[simp] lemma applyDirection_moves (g : Game) :
    (applyDirection g).moves_without_food = g.moves_without_food := by
  unfold applyDirection; split <;> rfl

@[simp] lemma applyDirection_max_moves (g : Game) :
    (applyDirection g).max_moves_without_food = g.max_moves_without_food := by
  unfold applyDirection; split <;> rfl

@[simp] lemma generate_food_width (pick : List Pos → Pos) (g : Game) :
    (generate_food pick g).width = g.width := by
  unfold generate_food; dsimp only; split <;> rfl

@[simp] lemma generate_food_height (pick : List Pos → Pos) (g : Game) :
    (generate_food pick g).height = g.height := by
  unfold generate_food; dsimp only; split <;> rfl

@[simp] lemma generate_food_snake (pick : List Pos → Pos) (g : Game) :
    (generate_food pick g).snake = g.snake := by
  unfold generate_food; dsimp only; split <;> rfl

@[simp] lemma generate_food_score (pick : List Pos → Pos) (g : Game) :
    (generate_food pick g).score = g.score := by
  unfold generate_food; dsimp only; split <;> rfl

@[simp] lemma generate_food_moves (pick : List Pos → Pos) (g : Game) :
    (generate_food pick g).moves_without_food = g.moves_without_food := by
  unfold generate_food; dsimp only; split <;> rfl

@[simp] lemma generate_food_direction (pick : List Pos → Pos) (g : Game) :
    (generate_food pick g).direction = g.direction := by
  unfold generate_food; dsimp only; split <;> rfl

/-- Doubling a direction delta never gives the zero vector. -/
lemma direction_value_add_self_ne_zero (d : Direction) :
    (d.value.1 + d.value.1, d.value.2 + d.value.2) ≠ ((0 : Int), (0 : Int)) := by
  cases d <;> simp [Direction.value]

/-- Validity as a proposition about the delta sum. -/
lemma is_valid_direction_change_iff (g : Game) (d : Direction) :
    is_valid_direction_change g d = true ↔
      (g.direction.value.1 + d.value.1, g.direction.value.2 + d.value.2) ≠
        ((0 : Int), (0 : Int)) := by
  simp only [is_valid_direction_change, decide_eq_true_eq]

/-- Direction of the state after an update: the resolved one while playing,
the unchanged one otherwise. -/
lemma update_direction (pick : List Pos → Pos) (g : Game) :
    (update pick g).direction = g.direction ∨
      (update pick g).direction = (applyDirection g).direction := by
  unfold update
  dsimp only
  split
  · exact Or.inl rfl
  · split
    · exact Or.inr rfl
    · split
      · exact Or.inr rfl
      · split
        · right; simp
        · split <;> exact Or.inr rfl

/-- Membership in the generate_food enumeration is exactly freeness. -/
lemma mem_emptyPositions (width height : Nat) (snake : List Pos) (p : Pos) :
    p ∈ emptyPositions width height snake ↔ FreeCell width height snake p := by
  unfold emptyPositions FreeCell InBounds
  constructor
  · intro hmem
    rw [List.mem_flatMap] at hmem
    obtain ⟨x, hx, hmem⟩ := hmem
    rw [List.mem_filter] at hmem
    obtain ⟨hmap, hdec⟩ := hmem
    rw [List.mem_map] at hmap
    obtain ⟨y, hy, rfl⟩ := hmap
    rw [List.mem_range] at hx hy
    refine ⟨⟨?_, ?_, ?_, ?_⟩, by simpa using hdec⟩
    · show (0 : Int) ≤ (x : Int); positivity
    · show (x : Int) < (width : Int); exact_mod_cast hx
    · show (0 : Int) ≤ (y : Int); positivity
    · show (y : Int) < (height : Int); exact_mod_cast hy
  · rintro ⟨⟨h1, h2, h3, h4⟩, hns⟩
    rw [List.mem_flatMap]
    refine ⟨p.1.toNat, by rw [List.mem_range]; omega, ?_⟩
    rw [List.mem_filter]
    constructor
    · rw [List.mem_map]
      refine ⟨p.2.toNat, by rw [List.mem_range]; omega, ?_⟩
      have e1 : (p.1.toNat : Int) = p.1 := Int.toNat_of_nonneg h1
      have e2 : (p.2.toNat : Int) = p.2 := Int.toNat_of_nonneg h3
      rw [Prod.ext_iff]
      exact ⟨e1, e2⟩
    · simpa using hns

/-! ### Claims about the step engine -/

/-- Claim C4: the engine never applies the exact reverse of the previously
applied direction: change_direction leaves the stored direction alone and
drops an invalid queued value, and update both re-validates the queued
direction and ends with a direction whose delta sum with the previous one
is never zero. -/
theorem claim4_no_instant_reversal (pick : List Pos → Pos) (g : Game) (d : Direction) :
    (change_direction g d).direction = g.direction
  ∧ (is_valid_direction_change g d = false →
      (change_direction g d).next_direction = g.next_direction)
  ∧ ((update pick g).direction.value.1 + g.direction.value.1,
      (update pick g).direction.value.2 + g.direction.value.2) ≠ ((0 : Int), (0 : Int))
  ∧ (is_valid_direction_change g g.next_direction = false →
      (update pick g).direction = g.direction) := by
  refine ⟨?_, ?_, ?_, ?_⟩
  · unfold change_direction; split <;> rfl
  · intro h; unfold change_direction; rw [h]; simp
  · rcases update_direction pick g with h | h
    · rw [h]; exact direction_value_add_self_ne_zero g.direction
    · rw [h]; unfold applyDirection
      split
      · rename_i hvalid
        have h2 := (is_valid_direction_change_iff g g.next_direction).mp hvalid
        intro hc
        apply h2
        simp only [Prod.mk.injEq] at hc ⊢
        omega
      · exact direction_value_add_self_ne_zero g.direction
  · intro h
    rcases update_direction pick g with h1 | h1
    · exact h1
    · rw [h1]; unfold applyDirection; rw [h]; simp

/-- Claim C5: while playing, a new head that is out of bounds or on the
current body (before any tail removal) sets GAME_OVER and leaves the snake,
score, food and starvation counter unchanged. -/
theorem claim5_collision_game_over (pick : List Pos → Pos) (g : Game)
    (hplay : g.state = GameState.PLAYING) (_hsnake : g.snake ≠ [])
    (hbad : ¬ InBounds g.width g.height (nextHead g) ∨ nextHead g ∈ g.snake) :
    (update pick g).state = GameState.GAME_OVER ∧
    (update pick g).snake = g.snake ∧
    (update pick g).score = g.score ∧
    (update pick g).food = g.food ∧
    (update pick g).moves_without_food = g.moves_without_food := by
  unfold update
  dsimp only
  rw [if_neg (by simp [hplay])]
  by_cases hw : (nextHead g).1 < 0 ∨ ((applyDirection g).width : Int) ≤ (nextHead g).1 ∨
      (nextHead g).2 < 0 ∨ ((applyDirection g).height : Int) ≤ (nextHead g).2
  · rw [if_pos hw]; simp
  · rw [if_neg hw]
    have hmem : nextHead g ∈ (applyDirection g).snake := by
      rcases hbad with h | h
      · exfalso
        apply hw
        simp only [applyDirection_width, applyDirection_height]
        unfold InBounds at h
        omega
      · simpa using h
    rw [if_pos hmem]; simp

/-- Claim C6: while playing, a legal new head equal to the food cell makes
update increment the score, prepend the head without removing the tail,
reset the starvation counter, and hand the grown state to generate_food. -/
theorem claim6_eating_grows (pick : List Pos → Pos) (g : Game)
    (hplay : g.state = GameState.PLAYING) (_hsnake : g.snake ≠ [])
    (hin : InBounds g.width g.height (nextHead g))
    (hmem : nextHead g ∉ g.snake)
    (hfood : g.food = some (nextHead g)) :
    update pick g =
      generate_food pick
        { applyDirection g with snake := nextHead g :: g.snake,
                                score := g.score + 1, moves_without_food := 0 } ∧
    (update pick g).score = g.score + 1 ∧
    (update pick g).snake = nextHead g :: g.snake ∧
    (update pick g).snake.length = g.snake.length + 1 ∧
    (update pick g).moves_without_food = 0 := by
  have hupd : update pick g =
      generate_food pick
        { applyDirection g with snake := nextHead g :: g.snake,
                                score := g.score + 1, moves_without_food := 0 } := by
    unfold update
    dsimp only
    rw [if_neg (by simp [hplay])]
    rw [if_neg (by
      simp only [applyDirection_width, applyDirection_height]
      unfold InBounds at hin
      omega)]
    rw [if_neg (by simpa using hmem)]
    rw [if_pos (by simpa using hfood)]
    simp only [applyDirection_snake, applyDirection_score]
  refine ⟨hupd, ?_, ?_, ?_, ?_⟩ <;> rw [hupd] <;> simp

/-- Claim C7: while playing, a legal new head different from the food makes
update drop the tail (net length unchanged), bump the starvation counter,
and go GAME_OVER exactly when the counter then exceeds width*height. -/
theorem claim7_starvation_step (pick : List Pos → Pos) (g : Game)
    (hplay : g.state = GameState.PLAYING) (_hsnake : g.snake ≠ [])
    (hin : InBounds g.width g.height (nextHead g))
    (hmem : nextHead g ∉ g.snake)
    (hfood : g.food ≠ some (nextHead g))
    (hmax : g.max_moves_without_food = g.width * g.height) :
    (update pick g).snake = (nextHead g :: g.snake).dropLast ∧
    (update pick g).snake.length = g.snake.length ∧
    (update pick g).moves_without_food = g.moves_without_food + 1 ∧
    ((update pick g).state = GameState.GAME_OVER ↔
      g.width * g.height < g.moves_without_food + 1) := by
  unfold update
  dsimp only
  rw [if_neg (by simp [hplay])]
  rw [if_neg (by
    simp only [applyDirection_width, applyDirection_height]
    unfold InBounds at hin
    omega)]
  rw [if_neg (by simpa using hmem)]
  rw [if_neg (by simpa using hfood)]
  split
  · rename_i hst
    simp only [applyDirection_max_moves, applyDirection_moves, hmax] at hst
    refine ⟨?_, ?_, ?_, ?_⟩
    · simp [applyDirection_snake]
    · simp [applyDirection_snake]
    · simp [applyDirection_moves]
    · exact iff_of_true rfl hst
  · rename_i hst
    simp only [applyDirection_max_moves, applyDirection_moves, hmax, not_lt] at hst
    refine ⟨?_, ?_, ?_, ?_⟩
    · simp [applyDirection_snake]
    · simp [applyDirection_snake]
    · simp [applyDirection_moves]
    · simp only [applyDirection_state, hplay]
      exact iff_of_false (by simp) (by omega)

/-- Claim C8: generate_food returns a free in-bounds cell whenever one
exists (the unique free cell when there is exactly one), and returns no
food and sets GAME_OVER exactly when the snake covers the whole board. -/
theorem claim8_generate_food_spec (pick : List Pos → Pos) (g : Game)
    (hpick : ∀ l : List Pos, l ≠ [] → pick l ∈ l)
    (hplay : g.state = GameState.PLAYING) :
    ((∃ p, FreeCell g.width g.height g.snake p) →
      ∃ c, (generate_food pick g).food = some c ∧ FreeCell g.width g.height g.snake c) ∧
    (∀ c₀, (∀ p, FreeCell g.width g.height g.snake p ↔ p = c₀) →
      (generate_food pick g).food = some c₀) ∧
    ((generate_food pick g).food = none ↔
      ∀ p, InBounds g.width g.height p → p ∈ g.snake) ∧
    ((generate_food pick g).state = GameState.GAME_OVER ↔
      ∀ p, InBounds g.width g.height p → p ∈ g.snake) := by
  by_cases hE : emptyPositions g.width g.height g.snake = []
  · have noFree : ∀ p, ¬ FreeCell g.width g.height g.snake p := by
      intro p hp
      have := (mem_emptyPositions g.width g.height g.snake p).mpr hp
      rw [hE] at this
      simp at this
    have hfull : ∀ p, InBounds g.width g.height p → p ∈ g.snake := by
      intro p hp
      by_contra hns
      exact noFree p ⟨hp, hns⟩
    refine ⟨?_, ?_, ?_, ?_⟩
    · rintro ⟨p, hp⟩; exact absurd hp (noFree p)
    · intro c₀ hc₀
      exact absurd ((hc₀ c₀).mpr rfl) (noFree c₀)
    · unfold generate_food; rw [if_pos hE]; simpa using hfull
    · unfold generate_food; rw [if_pos hE]; simpa using hfull
  · have hpickmem := hpick _ hE
    have hfree : FreeCell g.width g.height g.snake
        (pick (emptyPositions g.width g.height g.snake)) :=
      (mem_emptyPositions _ _ _ _).mp hpickmem
    have hnotfull : ¬ ∀ p, InBounds g.width g.height p → p ∈ g.snake := by
      intro hfull
      exact hfree.2 (hfull _ hfree.1)
    refine ⟨?_, ?_, ?_, ?_⟩
    · intro _
      refine ⟨pick (emptyPositions g.width g.height g.snake), ?_, hfree⟩
      unfold generate_food; rw [if_neg hE]
    · intro c₀ hc₀
      have : pick (emptyPositions g.width g.height g.snake) = c₀ := (hc₀ _).mp hfree
      unfold generate_food; rw [if_neg hE]; simp [this]
    · unfold generate_food; rw [if_neg hE]; simpa using hnotfull
    · unfold generate_food; rw [if_neg hE]
      simp only [hplay]
      constructor
      · intro hcontra; exact absurd hcontra (by simp)
      · intro hcontra; exact absurd hcontra hnotfull

/-! ### The search graph and paths in it -/

/-- Characterization of get_neighbors membership: adjacency plus freeness. -/
lemma mem_get_neighbors (width height : Nat) (snake : List Pos) (pos q : Pos) :
    q ∈ get_neighbors width height snake pos ↔
      IsAdjacent pos q ∧ FreeCell width height snake q := by
  unfold get_neighbors IsAdjacent FreeCell InBounds
  simp only [List.mem_filter, List.mem_map, List.mem_cons, List.not_mem_nil, or_false,
    decide_eq_true_eq]
  constructor
  · rintro ⟨⟨d, hd, rfl⟩, h1, h2, h3, h4, h5⟩
    refine ⟨?_, ⟨h1, h2, h3, h4⟩, h5⟩
    rcases hd with rfl | rfl | rfl | rfl
    · left; simp
    · right; left; simp; omega
    · right; right; left; simp
    · right; right; right; simp; omega
  · rintro ⟨hadj, ⟨h1, h2, h3, h4⟩, h5⟩
    refine ⟨?_, h1, h2, h3, h4, h5⟩
    rcases hadj with rfl | rfl | rfl | rfl
    · exact ⟨(0, 1), by simp, by simp⟩
    · exact ⟨(0, -1), by simp, by simp; omega⟩
    · exact ⟨(1, 0), by simp, by simp⟩
    · exact ⟨(-1, 0), by simp, by simp; omega⟩

/-- A cell is never its own neighbor. -/
lemma get_neighbors_ne (width height : Nat) (snake : List Pos) (pos q : Pos)
    (h : q ∈ get_neighbors width height snake pos) : q ≠ pos := by
  rcases (mem_get_neighbors width height snake pos q).mp h with ⟨hadj, _⟩
  rcases hadj with rfl | rfl | rfl | rfl
  · intro h1; have h2 := congrArg Prod.snd h1; dsimp at h2; omega
  · intro h1; have h2 := congrArg Prod.snd h1; dsimp at h2; omega
  · intro h1; have h2 := congrArg Prod.fst h1; dsimp at h2; omega
  · intro h1; have h2 := congrArg Prod.fst h1; dsimp at h2; omega

lemma validPath_nil (width height : Nat) (snake : List Pos) (a b : Pos) :
    ValidPath width height snake a [] b ↔ a = b := Iff.rfl

lemma validPath_cons (width height : Nat) (snake : List Pos) (a c b : Pos) (l : List Pos) :
    ValidPath width height snake a (c :: l) b ↔
      c ∈ get_neighbors width height snake a ∧ ValidPath width height snake c l b := Iff.rfl

lemma validPath_append (width height : Nat) (snake : List Pos) :
    ∀ (l₁ l₂ : List Pos) (a m b : Pos),
      ValidPath width height snake a l₁ m → ValidPath width height snake m l₂ b →
      ValidPath width height snake a (l₁ ++ l₂) b := by
  intro l₁
  induction l₁ with
  | nil =>
    intro l₂ a m b h1 h2
    rw [validPath_nil] at h1
    subst h1
    simpa using h2
  | cons c t ih =>
    intro l₂ a m b h1 h2
    exact ⟨h1.1, ih l₂ c m b h1.2 h2⟩

lemma validPath_snoc (width height : Nat) (snake : List Pos) (l : List Pos) (a m n : Pos)
    (h1 : ValidPath width height snake a l m) (h2 : n ∈ get_neighbors width height snake m) :
    ValidPath width height snake a (l ++ [n]) n :=
  validPath_append width height snake l [n] a m n h1 ⟨h2, rfl⟩

lemma validPath_last (width height : Nat) (snake : List Pos) :
    ∀ (l : List Pos) (a b : Pos), ValidPath width height snake a l b → l ≠ [] →
      l.getLast? = some b := by
  intro l
  induction l with
  | nil => intro a b _ hne; exact absurd rfl hne
  | cons c t ih =>
    intro a b h _
    cases t with
    | nil =>
      have : c = b := h.2
      simp [this]
    | cons d t2 =>
      rw [List.getLast?_cons_cons]
      exact ih c b h.2 (by simp)

lemma validPath_mem_free (width height : Nat) (snake : List Pos) :
    ∀ (l : List Pos) (a b : Pos), ValidPath width height snake a l b →
      ∀ c ∈ l, FreeCell width height snake c := by
  intro l
  induction l with
  | nil => intro a b _ c hc; simp at hc
  | cons d t ih =>
    intro a b h c hc
    rcases List.mem_cons.mp hc with rfl | hc
    · exact ((mem_get_neighbors width height snake a c).mp h.1).2
    · exact ih d b h.2 c hc

lemma validPath_chain (width height : Nat) (snake : List Pos) :
    ∀ (l : List Pos) (a b : Pos), ValidPath width height snake a l b →
      List.Chain' IsAdjacent (a :: l) := by
  intro l
  induction l with
  | nil => intro a b _; simp
  | cons c t ih =>
    intro a b h
    rw [List.chain'_cons]
    exact ⟨((mem_get_neighbors width height snake a c).mp h.1).1, ih c b h.2⟩

lemma validPath_head_adjacent (width height : Nat) (snake : List Pos) (l : List Pos)
    (a b c : Pos) (h : ValidPath width height snake a l b) (hc : l.head? = some c) :
    IsAdjacent a c := by
  cases l with
  | nil => simp at hc
  | cons d t =>
    have : d = c := by simpa using hc
    subst this
    exact ((mem_get_neighbors width height snake a d).mp h.1).1

/-- Splitting a path at index i: the first i steps reach cell i, and the
remaining steps lead from cell i to the endpoint. -/
lemma validPath_split (width height : Nat) (snake : List Pos) :
    ∀ (l : List Pos) (a b : Pos) (i : Nat), ValidPath width height snake a l b →
      i ≤ l.length →
      ValidPath width height snake a (l.take i) ((a :: l).getD i (0, 0)) ∧
        ValidPath width height snake ((a :: l).getD i (0, 0)) (l.drop i) b := by
  intro l
  induction l with
  | nil =>
    intro a b i h hi
    have hz : i = 0 := Nat.le_zero.mp hi
    subst hz
    exact ⟨rfl, h⟩
  | cons c t ih =>
    intro a b i h hi
    cases i with
    | zero => exact ⟨rfl, h⟩
    | succ j =>
      have hj : j ≤ t.length := by simpa using hi
      have H := ih c b j h.2 hj
      rw [List.getD_cons_succ, List.take_succ_cons, List.drop_succ_cons]
      exact ⟨⟨h.1, H.1⟩, H.2⟩

/-- One adjacency step changes the Manhattan distance to a fixed target by
at most one. -/
lemma manhattan_adjacent_step (a c t : Pos) (h : IsAdjacent a c) :
    manhattan_distance a t ≤ manhattan_distance c t + 1 := by
  unfold manhattan_distance
  rcases h with rfl | rfl | rfl | rfl <;> dsimp only <;> omega

/-- The Manhattan distance never exceeds the length of a connecting path. -/
lemma manhattan_le_path (width height : Nat) (snake : List Pos) :
    ∀ (l : List Pos) (a b : Pos), ValidPath width height snake a l b →
      manhattan_distance a b ≤ l.length := by
  intro l
  induction l with
  | nil =>
    intro a b h
    rw [validPath_nil] at h
    subst h
    simp [manhattan_distance]
  | cons c t ih =>
    intro a b h
    have hadj := ((mem_get_neighbors width height snake a c).mp h.1).1
    have := manhattan_adjacent_step a c b hadj
    have := ih c b h.2
    simp only [List.length_cons]
    omega

/-! ### The safety heuristic (flood-fill fallback) -/

/-- Structure of the candidate fold of get_safe_direction: either no
candidate improved on the initial accumulator (and it is returned
unchanged), or the result is the first legal candidate d beating the
initial maximum whose score no earlier legal candidate reaches and no
later legal candidate exceeds. -/
lemma safeFold_structure (width height : Nat) (snake : List Pos) (head : Int × Int) :
    ∀ (l : List (Int × Int)) (b : Option (Int × Int)) (m : Int),
      (l.foldl (safeStep width height snake head) (b, m) = (b, m) ∧
        ∀ e ∈ l, safeLegal width height snake head e →
          (safeScore width height snake head e : Int) ≤ m) ∨
      (∃ l₁ d l₂, l = l₁ ++ d :: l₂ ∧ safeLegal width height snake head d ∧
        (l.foldl (safeStep width height snake head) (b, m)).1 = some d ∧
        (l.foldl (safeStep width height snake head) (b, m)).2 =
          (safeScore width height snake head d : Int) ∧
        m < (safeScore width height snake head d : Int) ∧
        (∀ e ∈ l₁, safeLegal width height snake head e →
          safeScore width height snake head e < safeScore width height snake head d) ∧
        (∀ e ∈ l₂, safeLegal width height snake head e →
          safeScore width height snake head e ≤ safeScore width height snake head d)) := by
  intro l
  induction l with
  | nil =>
    intro b m
    left
    exact ⟨rfl, by simp⟩
  | cons d₀ rest ih =>
    intro b m
    by_cases hleg : safeLegal width height snake head d₀
    · by_cases hgt : m < (safeScore width height snake head d₀ : Int)
      · have hstep : safeStep width height snake head (b, m) d₀ =
            (some d₀, (safeScore width height snake head d₀ : Int)) := by
          unfold safeStep
          rw [if_pos hleg, if_pos (by simpa using hgt)]
        rw [List.foldl_cons, hstep]
        rcases ih (some d₀) ((safeScore width height snake head d₀ : Int)) with
          ⟨heq, hall⟩ | ⟨l₁, d, l₂, hsplit, hlegd, h1, h2, hlt, hpre, hpost⟩
        · right
          refine ⟨[], d₀, rest, by simp, hleg, ?_, ?_, hgt, by simp, ?_⟩
          · rw [heq]
          · rw [heq]
          · intro e he hle
            have := hall e he hle
            omega
        · right
          refine ⟨d₀ :: l₁, d, l₂, by simp [hsplit], hlegd, h1, h2, by omega, ?_, hpost⟩
          intro e he hle
          rcases List.mem_cons.mp he with rfl | he
          · omega
          · exact hpre e he hle
      · have hstep : safeStep width height snake head (b, m) d₀ = (b, m) := by
          unfold safeStep
          rw [if_pos hleg, if_neg (by simpa using hgt)]
        rw [List.foldl_cons, hstep]
        rcases ih b m with ⟨heq, hall⟩ | ⟨l₁, d, l₂, hsplit, hlegd, h1, h2, hlt, hpre, hpost⟩
        · left
          refine ⟨heq, ?_⟩
          intro e he hle
          rcases List.mem_cons.mp he with rfl | he
          · omega
          · exact hall e he hle
        · right
          refine ⟨d₀ :: l₁, d, l₂, by simp [hsplit], hlegd, h1, h2, hlt, ?_, hpost⟩
          intro e he hle
          rcases List.mem_cons.mp he with rfl | he
          · omega
          · exact hpre e he hle
    · have hstep : safeStep width height snake head (b, m) d₀ = (b, m) := by
        unfold safeStep
        rw [if_neg hleg]
      rw [List.foldl_cons, hstep]
      rcases ih b m with ⟨heq, hall⟩ | ⟨l₁, d, l₂, hsplit, hlegd, h1, h2, hlt, hpre, hpost⟩
      · left
        refine ⟨heq, ?_⟩
        intro e he hle
        rcases List.mem_cons.mp he with rfl | he
        · exact absurd hle hleg
        · exact hall e he hle
      · right
        refine ⟨d₀ :: l₁, d, l₂, by simp [hsplit], hlegd, h1, h2, hlt, ?_, hpost⟩
        intro e he hle
        rcases List.mem_cons.mp he with rfl | he
        · exact absurd hle hleg
        · exact hpre e he hle

/-- Claim C3: get_safe_direction considers exactly the legal candidates
among Up, Down, Left, Right; it returns none iff no candidate is legal,
and otherwise the first legal candidate (in enumeration order) with the
strictly greatest flood-fill count — in particular a legal one, so the
resulting cell is in bounds and off the snake. -/
theorem claim3_get_safe_direction_spec (width height : Nat) (snake : List Pos)
    (_hsnake : snake ≠ []) :
    (get_safe_direction width height snake = none ↔
      ∀ d ∈ safeDirections, ¬ safeLegal width height snake snake.headI d) ∧
    (∀ dd, get_safe_direction width height snake = some dd →
      dd ∈ safeDirections ∧
      safeLegal width height snake snake.headI dd ∧
      FreeCell width height snake (snake.headI.1 + dd.1, snake.headI.2 + dd.2) ∧
      (∀ e ∈ safeDirections, safeLegal width height snake snake.headI e →
        safeScore width height snake snake.headI e ≤
          safeScore width height snake snake.headI dd) ∧
      ∃ l₁ l₂, safeDirections = l₁ ++ dd :: l₂ ∧
        ∀ e ∈ l₁, safeLegal width height snake snake.headI e →
          safeScore width height snake snake.headI e <
            safeScore width height snake snake.headI dd) := by
  have H := safeFold_structure width height snake snake.headI safeDirections none (-1)
  constructor
  · constructor
    · intro hnone
      rcases H with ⟨_, hall⟩ | ⟨l₁, d, l₂, hsplit, hlegd, h1, _, _, _, _⟩
      · intro d hd hle
        have := hall d hd hle
        omega
      · exfalso
        unfold get_safe_direction at hnone
        dsimp only at hnone
        rw [h1] at hnone
        simp at hnone
    · intro hnoleg
      rcases H with ⟨heq, _⟩ | ⟨l₁, d, l₂, hsplit, hlegd, _, _, _, _, _⟩
      · unfold get_safe_direction
        dsimp only
        rw [heq]
      · exact absurd hlegd (hnoleg d (by rw [hsplit]; simp))
  · intro dd hdd
    rcases H with ⟨heq, _⟩ | ⟨l₁, d, l₂, hsplit, hlegd, h1, h2, hlt, hpre, hpost⟩
    · exfalso
      unfold get_safe_direction at hdd
      dsimp only at hdd
      rw [heq] at hdd
      simp at hdd
    · have hd_eq : d = dd := by
        unfold get_safe_direction at hdd
        dsimp only at hdd
        rw [h1] at hdd
        simpa using hdd
      subst hd_eq
      have hmem : d ∈ safeDirections := by rw [hsplit]; simp
      refine ⟨hmem, hlegd, ?_, ?_, l₁, l₂, hsplit, hpre⟩
      · rcases hlegd with ⟨ha, hb, hc, hd2, he⟩
        exact ⟨⟨ha, hb, hc, hd2⟩, he⟩
      · intro e he hle
        rw [hsplit] at he
        rcases List.mem_append.mp he with he | he
        · exact Nat.le_of_lt (hpre e he hle)
        · rcases List.mem_cons.mp he with rfl | he
          · exact Nat.le_refl _
          · exact hpost e he hle

/-! ### Finite board bookkeeping -/

lemma mem_boardFinset (width height : Nat) (p : Pos) :
    p ∈ boardFinset width height ↔ InBounds width height p := by
  unfold boardFinset InBounds
  simp only [Finset.mem_image, Finset.mem_product, Finset.mem_range]
  constructor
  · rintro ⟨⟨x, y⟩, hxy, rfl⟩
    obtain ⟨hx, hy⟩ := hxy
    refine ⟨?_, ?_, ?_, ?_⟩
    · show (0 : Int) ≤ (x : Int); positivity
    · show (x : Int) < (width : Int); exact_mod_cast hx
    · show (0 : Int) ≤ (y : Int); positivity
    · show (y : Int) < (height : Int); exact_mod_cast hy
  · rintro ⟨h1, h2, h3, h4⟩
    refine ⟨(p.1.toNat, p.2.toNat), ⟨by dsimp only; omega, by dsimp only; omega⟩, ?_⟩
    rw [Prod.ext_iff]
    constructor
    · dsimp only; omega
    · dsimp only; omega

lemma keyCells_card_le (width height : Nat) (start : Pos) :
    (keyCells width height start).card ≤ width * height + 1 := by
  unfold keyCells
  have h1 : (boardFinset width height).card ≤ width * height := by
    unfold boardFinset
    refine le_trans Finset.card_image_le ?_
    rw [Finset.card_product]
    simp
  have h2 := Finset.card_insert_le start (boardFinset width height)
  omega

lemma mem_keyCells (width height : Nat) (start p : Pos) :
    p ∈ keyCells width height start ↔ p = start ∨ InBounds width height p := by
  unfold keyCells
  rw [Finset.mem_insert, mem_boardFinset]

lemma get_neighbors_mem_keyCells (width height : Nat) (snake : List Pos)
    (pos q start : Pos) (h : q ∈ get_neighbors width height snake pos) :
    q ∈ keyCells width height start := by
  rw [mem_keyCells]
  exact Or.inr ((mem_get_neighbors _ _ _ _ _).mp h).2.1

/-! ### Fuel sufficiency of the flood-fill loop -/

lemma bfsStep_measure (width height : Nat) (start : Pos) :
    ∀ (nl : List Pos) (visited queue : List Pos),
      (∀ n ∈ nl, n ∈ keyCells width height start) →
      cMeasure width height start (nl.foldl bfsStep (visited, queue)).1
          (nl.foldl bfsStep (visited, queue)).2 ≤
        cMeasure width height start visited queue := by
  intro nl
  induction nl with
  | nil => intro v q _; exact le_refl _
  | cons n rest ih =>
    intro v q hmem
    rw [List.foldl_cons]
    by_cases hn : n ∈ v
    · have hstep : bfsStep (v, q) n = (v, q) := by unfold bfsStep; rw [if_pos hn]
      rw [hstep]
      exact ih v q fun m hm => hmem m (List.mem_cons_of_mem _ hm)
    · have hstep : bfsStep (v, q) n = (v ++ [n], q ++ [n]) := by
        unfold bfsStep; rw [if_neg hn]
      rw [hstep]
      refine le_trans (ih (v ++ [n]) (q ++ [n])
        fun m hm => hmem m (List.mem_cons_of_mem _ hm)) ?_
      unfold cMeasure
      have hkey : n ∈ keyCells width height start := hmem n (List.mem_cons_self _ _)
      have hflt : ((keyCells width height start).filter fun c => c ∈ v ++ [n]) =
          insert n ((keyCells width height start).filter fun c => c ∈ v) := by
        ext c
        simp only [Finset.mem_filter, Finset.mem_insert, List.mem_append,
          List.mem_singleton]
        constructor
        · rintro ⟨hc, hcv | rfl⟩
          · exact Or.inr ⟨hc, hcv⟩
          · exact Or.inl rfl
        · rintro (rfl | ⟨hc, hcv⟩)
          · exact ⟨hkey, Or.inr rfl⟩
          · exact ⟨hc, Or.inl hcv⟩
      have hnotf : n ∉ ((keyCells width height start).filter fun c => c ∈ v) := by
        simp [Finset.mem_filter, hn]
      have hsub : ((keyCells width height start).filter fun c => c ∈ v).card + 1 ≤
          (keyCells width height start).card := by
        have h1 : insert n ((keyCells width height start).filter fun c => c ∈ v) ⊆
            keyCells width height start := by
          rw [← hflt]
          exact Finset.filter_subset _ _
        have h2 := Finset.card_le_card h1
        rw [Finset.card_insert_of_not_mem hnotf] at h2
        exact h2
      rw [hflt, Finset.card_insert_of_not_mem hnotf]
      simp only [List.length_append, List.length_singleton]
      omega

lemma countLoop_isSome (width height : Nat) (snake : List Pos) (start : Pos) :
    ∀ (fuel : Nat) (visited queue : List Pos),
      cMeasure width height start visited queue < fuel →
      (countLoop width height snake fuel visited queue).isSome := by
  intro fuel
  induction fuel with
  | zero => intro v q h; exact absurd h (Nat.not_lt_zero _)
  | succ fuel ih =>
    intro v q h
    cases q with
    | nil => simp [countLoop]
    | cons pos rest =>
      simp only [countLoop]
      apply ih
      have h1 := bfsStep_measure width height start (get_neighbors width height snake pos)
        v rest fun m hm => get_neighbors_mem_keyCells width height snake pos m start hm
      have h2 : cMeasure width height start v (pos :: rest) =
          cMeasure width height start v rest + 1 := by
        unfold cMeasure
        simp only [List.length_cons]
        omega
      omega

/-- The fuel bound bfsFuel really covers the whole flood fill, so the 0
fallback in count_accessible_spaces is dead code. -/
theorem countLoop_fuel_sufficient (width height : Nat) (snake : List Pos) (p : Pos) :
    (countLoop width height snake (bfsFuel width height) [p] [p]).isSome := by
  apply countLoop_isSome width height snake p
  have hK := keyCells_card_le width height p
  unfold cMeasure bfsFuel
  simp only [List.length_singleton]
  omega

/-! ### The frontier minimum -/

lemma entryLe_refl (a : Nat × Pos) : entryLe a a := by unfold entryLe; omega

lemma entryLe_trans (a b c : Nat × Pos) (h1 : entryLe a b) (h2 : entryLe b c) :
    entryLe a c := by
  unfold entryLe at h1 h2 ⊢
  omega

lemma entryLe_total (a b : Nat × Pos) : entryLe a b ∨ entryLe b a := by
  unfold entryLe
  omega

lemma entryLe_fst (a b : Nat × Pos) (h : entryLe a b) : a.1 ≤ b.1 := by
  unfold entryLe at h
  omega

lemma foldlMin_mem (es : List (Nat × Pos)) :
    ∀ a, es.foldl (fun a b => if entryLe a b then a else b) a = a ∨
      es.foldl (fun a b => if entryLe a b then a else b) a ∈ es := by
  induction es with
  | nil => intro a; exact Or.inl rfl
  | cons b es ih =>
    intro a
    rw [List.foldl_cons]
    rcases ih (if entryLe a b then a else b) with h | h
    · rw [h]
      split
      · exact Or.inl rfl
      · exact Or.inr (List.mem_cons_self _ _)
    · exact Or.inr (List.mem_cons_of_mem _ h)

lemma foldlMin_le (es : List (Nat × Pos)) :
    ∀ a, entryLe (es.foldl (fun a b => if entryLe a b then a else b) a) a ∧
      ∀ x ∈ es, entryLe (es.foldl (fun a b => if entryLe a b then a else b) a) x := by
  induction es with
  | nil => intro a; exact ⟨entryLe_refl a, by simp⟩
  | cons b es ih =>
    intro a
    rw [List.foldl_cons]
    obtain ⟨h1, h2⟩ := ih (if entryLe a b then a else b)
    by_cases hab : entryLe a b
    · rw [if_pos hab] at h1 h2 ⊢
      refine ⟨h1, ?_⟩
      intro x hx
      rcases List.mem_cons.mp hx with rfl | hx
      · exact entryLe_trans _ _ _ h1 hab
      · exact h2 x hx
    · rw [if_neg hab] at h1 h2 ⊢
      rcases entryLe_total a b with hab2 | hba
      · exact absurd hab2 hab
      · refine ⟨entryLe_trans _ _ _ h1 hba, ?_⟩
        intro x hx
        rcases List.mem_cons.mp hx with rfl | hx
        · exact h1
        · exact h2 x hx

lemma minEntry_mem (l : List (Nat × Pos)) (e : Nat × Pos) (h : minEntry l = some e) :
    e ∈ l := by
  cases l with
  | nil => simp [minEntry] at h
  | cons a es =>
    unfold minEntry at h
    rcases foldlMin_mem es a with h1 | h1 <;> rw [Option.some_inj] at h <;> rw [← h]
    · rw [h1]; exact List.mem_cons_self _ _
    · exact List.mem_cons_of_mem _ h1

lemma minEntry_le (l : List (Nat × Pos)) (e : Nat × Pos) (h : minEntry l = some e) :
    ∀ x ∈ l, entryLe e x := by
  cases l with
  | nil => simp [minEntry] at h
  | cons a es =>
    unfold minEntry at h
    rw [Option.some_inj] at h
    obtain ⟨h1, h2⟩ := foldlMin_le es a
    intro x hx
    rcases List.mem_cons.mp hx with rfl | hx
    · rw [← h]; exact h1
    · rw [← h]; exact h2 x hx

lemma minEntry_eq_none (l : List (Nat × Pos)) (h : minEntry l = none) : l = [] := by
  cases l with
  | nil => rfl
  | cons a es => simp [minEntry] at h

/-! ### Structure of one relaxation -/

/-- Case analysis of relaxNeighbor: either the improvement test fails and
the state is unchanged, or all four components are updated. -/
lemma relaxNeighbor_eq (goal current : Pos) (σ : AStarState) (n : Pos) :
    relaxNeighbor goal current σ n = σ ∨
    ((σ.g_score n = none ∨
        ∃ gn, σ.g_score n = some gn ∧ (σ.g_score current).getD 0 + 1 < gn) ∧
      relaxNeighbor goal current σ n =
        { σ with
          came_from := setMap σ.came_from n current,
          g_score := setMap σ.g_score n ((σ.g_score current).getD 0 + 1),
          f_score := setMap σ.f_score n
            ((σ.g_score current).getD 0 + 1 + manhattan_distance n goal),
          open_set := ((σ.g_score current).getD 0 + 1 + manhattan_distance n goal, n) ::
            σ.open_set }) := by
  unfold relaxNeighbor
  dsimp only
  split
  · rename_i hg
    right
    exact ⟨Or.inl hg, rfl⟩
  · rename_i gn hg
    split
    · rename_i hlt
      right
      exact ⟨Or.inr ⟨gn, hg, hlt⟩, rfl⟩
    · left
      rfl

lemma setMap_self {α : Type} (m : Pos → Option α) (k : Pos) (v : α) :
    setMap m k v k = some v := by
  unfold setMap
  rw [if_pos rfl]

lemma setMap_ne {α : Type} (m : Pos → Option α) (k p : Pos) (v : α) (h : p ≠ k) :
    setMap m k v p = m p := by
  unfold setMap
  rw [if_neg h]

/-- Relaxation never touches the g value of another cell. -/
lemma relax_g_of_ne (goal current : Pos) (σ : AStarState) (n p : Pos) (h : p ≠ n) :
    (relaxNeighbor goal current σ n).g_score p = σ.g_score p := by
  rcases relaxNeighbor_eq goal current σ n with he | ⟨_, he⟩ <;> rw [he]
  exact setMap_ne _ _ _ _ h

lemma relax_cf_of_ne (goal current : Pos) (σ : AStarState) (n p : Pos) (h : p ≠ n) :
    (relaxNeighbor goal current σ n).came_from p = σ.came_from p := by
  rcases relaxNeighbor_eq goal current σ n with he | ⟨_, he⟩ <;> rw [he]
  exact setMap_ne _ _ _ _ h

/-- Relaxation only pushes, so the frontier only grows. -/
lemma relax_open_mono (goal current : Pos) (σ : AStarState) (n : Pos) (e : Nat × Pos)
    (h : e ∈ σ.open_set) : e ∈ (relaxNeighbor goal current σ n).open_set := by
  rcases relaxNeighbor_eq goal current σ n with he | ⟨_, he⟩ <;> rw [he]
  · exact h
  · exact List.mem_cons_of_mem _ h

/-- A defined g value stays defined and only decreases. -/
lemma relax_g_defined (goal current : Pos) (σ : AStarState) (n p : Pos) (v : Nat)
    (h : σ.g_score p = some v) :
    ∃ v' ≤ v, (relaxNeighbor goal current σ n).g_score p = some v' := by
  rcases relaxNeighbor_eq goal current σ n with he | ⟨hcond, he⟩
  · exact ⟨v, le_rfl, by rw [he, h]⟩
  · by_cases hpn : p = n
    · subst hpn
      rcases hcond with hnone | ⟨gn, hgn, hlt⟩
      · rw [h] at hnone; cases hnone
      · rw [h] at hgn
        rw [Option.some_inj] at hgn
        subst hgn
        exact ⟨(σ.g_score current).getD 0 + 1, by omega,
          by rw [he]; exact setMap_self _ _ _⟩
    · exact ⟨v, le_rfl, by
        rw [he]
        exact (setMap_ne σ.g_score n p _ hpn).trans h⟩

/-- A g value after relaxation was at least as large before (or absent). -/
lemma relax_g_mono (goal current : Pos) (σ : AStarState) (n p : Pos) (v' : Nat)
    (h : (relaxNeighbor goal current σ n).g_score p = some v') :
    σ.g_score p = none ∨ ∃ v, σ.g_score p = some v ∧ v' ≤ v := by
  rcases relaxNeighbor_eq goal current σ n with he | ⟨hcond, he⟩
  · rw [he] at h
    exact Or.inr ⟨v', h, le_rfl⟩
  · by_cases hpn : p = n
    · subst hpn
      have h2 : setMap σ.g_score p ((σ.g_score current).getD 0 + 1) p = some v' := by
        rw [he] at h
        exact h
      rw [setMap_self, Option.some_inj] at h2
      rcases hcond with hnone | ⟨gn, hgn, hlt⟩
      · exact Or.inl hnone
      · exact Or.inr ⟨gn, hgn, by omega⟩
    · have h2 : σ.g_score p = some v' := by
        rw [he] at h
        exact (setMap_ne σ.g_score n p _ hpn).symm.trans h
      exact Or.inr ⟨v', h2, le_rfl⟩

/-! ### Unfolding the A* loop -/

lemma aStarLoop_succ_none (width height : Nat) (snake : List Pos) (goal : Pos)
    (fuel : Nat) (σ : AStarState) (h : minEntry σ.open_set = none) :
    aStarLoop width height snake goal (fuel + 1) σ = some [] := by
  simp only [aStarLoop, h]

lemma aStarLoop_succ_goal (width height : Nat) (snake : List Pos) (goal : Pos)
    (fuel : Nat) (σ : AStarState) (e : Nat × Pos) (h : minEntry σ.open_set = some e)
    (hg : e.2 = goal) :
    aStarLoop width height snake goal (fuel + 1) σ =
      reconstructPath σ.came_from (reconFuel width height) e.2 [] := by
  simp only [aStarLoop, h]
  rw [if_pos hg]

lemma aStarLoop_succ_step (width height : Nat) (snake : List Pos) (goal : Pos)
    (fuel : Nat) (σ : AStarState) (e : Nat × Pos) (h : minEntry σ.open_set = some e)
    (hg : e.2 ≠ goal) :
    aStarLoop width height snake goal (fuel + 1) σ =
      aStarLoop width height snake goal fuel
        (relaxAll width height snake goal e.2 { σ with open_set := σ.open_set.erase e }) := by
  simp only [aStarLoop, h]
  rw [if_neg hg]

/-! ### Invariant preservation through relaxation -/

lemma relax_g_none (goal current : Pos) (σ : AStarState) (n p : Pos)
    (h : (relaxNeighbor goal current σ n).g_score p = none) : σ.g_score p = none := by
  rcases relaxNeighbor_eq goal current σ n with he | ⟨_, he⟩
  · rw [he] at h; exact h
  · by_cases hpn : p = n
    · subst hpn
      have h2 : setMap σ.g_score p ((σ.g_score current).getD 0 + 1) p = none := by
        rw [he] at h; exact h
      rw [setMap_self] at h2
      cases h2
    · rw [he] at h
      exact (setMap_ne σ.g_score n p _ hpn).symm.trans h

lemma relaxList_open_mono (goal current : Pos) :
    ∀ (nl : List Pos) (σ : AStarState) (e : Nat × Pos), e ∈ σ.open_set →
      e ∈ (nl.foldl (relaxNeighbor goal current) σ).open_set := by
  intro nl
  induction nl with
  | nil => intro σ e he; exact he
  | cons n rest ih =>
    intro σ e he
    rw [List.foldl_cons]
    exact ih _ e (relax_open_mono goal current σ n e he)

lemma relaxList_g_defined (goal current : Pos) :
    ∀ (nl : List Pos) (σ : AStarState) (p : Pos) (v : Nat), σ.g_score p = some v →
      ∃ v' ≤ v, (nl.foldl (relaxNeighbor goal current) σ).g_score p = some v' := by
  intro nl
  induction nl with
  | nil => intro σ p v h; exact ⟨v, le_rfl, h⟩
  | cons n rest ih =>
    intro σ p v h
    rw [List.foldl_cons]
    obtain ⟨v1, hv1, h1⟩ := relax_g_defined goal current σ n p v h
    obtain ⟨v2, hv2, h2⟩ := ih _ p v1 h1
    exact ⟨v2, le_trans hv2 hv1, h2⟩

lemma relaxList_g_mono (goal current : Pos) :
    ∀ (nl : List Pos) (σ : AStarState) (p : Pos) (v' : Nat),
      (nl.foldl (relaxNeighbor goal current) σ).g_score p = some v' →
      σ.g_score p = none ∨ ∃ v, σ.g_score p = some v ∧ v' ≤ v := by
  intro nl
  induction nl with
  | nil => intro σ p v' h; exact Or.inr ⟨v', h, le_rfl⟩
  | cons n rest ih =>
    intro σ p v' h
    rw [List.foldl_cons] at h
    rcases ih _ p v' h with h1 | ⟨v1, h1, hv1⟩
    · exact Or.inl (relax_g_none goal current σ n p h1)
    · rcases relax_g_mono goal current σ n p v1 h1 with h2 | ⟨v2, h2, hv2⟩
      · exact Or.inl h2
      · exact Or.inr ⟨v2, h2, le_trans hv1 hv2⟩

lemma relaxList_g_other (goal current : Pos) :
    ∀ (nl : List Pos) (σ : AStarState) (p : Pos), (∀ n ∈ nl, p ≠ n) →
      (nl.foldl (relaxNeighbor goal current) σ).g_score p = σ.g_score p := by
  intro nl
  induction nl with
  | nil => intro σ p _; rfl
  | cons n rest ih =>
    intro σ p hp
    rw [List.foldl_cons]
    rw [ih _ p fun m hm => hp m (List.mem_cons_of_mem _ hm)]
    exact relax_g_of_ne goal current σ n p (hp n (List.mem_cons_self _ _))

/-- Preservation of the data invariants by one relaxation step. -/
lemma ainv_relax (width height : Nat) (snake : List Pos) (start goal current : Pos)
    (σ : AStarState) (n : Pos) (hA : AInv width height snake start σ)
    (gc : Nat) (hgc : σ.g_score current = some gc)
    (hn : n ∈ get_neighbors width height snake current) :
    AInv width height snake start (relaxNeighbor goal current σ n) := by
  rcases relaxNeighbor_eq goal current σ n with he | ⟨hcond, he⟩
  · rw [he]; exact hA
  · have hT : (σ.g_score current).getD 0 + 1 = gc + 1 := by rw [hgc]; rfl
    have hncur : n ≠ current := get_neighbors_ne width height snake current n hn
    have hnstart : n ≠ start := by
      intro hns
      subst hns
      rcases hcond with hnone | ⟨gn, hgn, hlt⟩
      · rw [hA.g_start] at hnone; cases hnone
      · rw [hA.g_start] at hgn
        rw [Option.some_inj] at hgn
        omega
    rw [he]
    have hfree : FreeCell width height snake n :=
      ((mem_get_neighbors width height snake current n).mp hn).2
    refine ⟨?_, ?_, ?_, ?_, ?_, ?_, ?_, ?_⟩
    · dsimp only
      exact (setMap_ne σ.g_score n start _ (Ne.symm hnstart)).trans hA.g_start
    · dsimp only
      exact (setMap_ne σ.came_from n start _ (Ne.symm hnstart)).trans hA.cf_start
    · intro p hp
      dsimp only at hp
      by_cases hpn : p = n
      · subst hpn; exact Or.inr hfree
      · rw [setMap_ne σ.g_score n p _ hpn] at hp
        exact hA.dom_free p hp
    · intro e he2
      dsimp only at he2 ⊢
      rcases List.mem_cons.mp he2 with rfl | he2
      · refine ⟨gc + 1, ?_, ?_⟩
        · dsimp only
          rw [← hT]
          exact setMap_self _ _ _
        · dsimp only
          rw [hT]
          omega
      · obtain ⟨v, hv, hle⟩ := hA.open_dom e he2
        by_cases hpn : e.2 = n
        · rw [hpn] at hv
          rcases hcond with hnone | ⟨gn, hgn, hlt⟩
          · rw [hnone] at hv; cases hv
          · rw [hgn] at hv
            rw [Option.some_inj] at hv
            refine ⟨(σ.g_score current).getD 0 + 1, ?_, ?_⟩
            · rw [hpn]; exact setMap_self _ _ _
            · omega
        · exact ⟨v, (setMap_ne σ.g_score n e.2 _ hpn).trans hv, hle⟩
    · intro p v hp
      dsimp only at hp
      by_cases hpn : p = n
      · subst hpn
        rw [setMap_self, Option.some_inj] at hp
        obtain ⟨l, hl, hlen⟩ := hA.g_path current gc hgc
        refine ⟨l ++ [p], validPath_snoc width height snake l start current p hl hn, ?_⟩
        rw [List.length_append]
        rw [hT] at hp
        simp only [List.length_singleton]
        omega
      · rw [setMap_ne σ.g_score n p _ hpn] at hp
        exact hA.g_path p v hp
    · intro p hp hcf
      dsimp only at hp hcf
      by_cases hpn : p = n
      · subst hpn
        rw [setMap_self] at hcf
        cases hcf
      · rw [setMap_ne σ.g_score n p _ hpn] at hp
        rw [setMap_ne σ.came_from n p _ hpn] at hcf
        exact hA.cf_none_start p hp hcf
    · intro p q hcf
      dsimp only at hcf ⊢
      by_cases hpn : p = n
      · subst hpn
        rw [setMap_self, Option.some_inj] at hcf
        subst hcf
        refine ⟨hn, gc + 1, gc, ?_, ?_, by omega⟩
        · rw [← hT]
          exact setMap_self _ _ _
        · exact (setMap_ne σ.g_score p current _ (Ne.symm hncur)).trans hgc
      · rw [setMap_ne σ.came_from n p _ hpn] at hcf
        obtain ⟨hmem, vp, vq, hvp, hvq, hle⟩ := hA.cf_step p q hcf
        by_cases hqn : q = n
        · subst hqn
          rcases hcond with hnone | ⟨gn, hgn, hlt⟩
          · rw [hnone] at hvq; cases hvq
          · rw [hgn] at hvq
            rw [Option.some_inj] at hvq
            refine ⟨hmem, vp, (σ.g_score current).getD 0 + 1,
              (setMap_ne σ.g_score q p _ hpn).trans hvp, setMap_self _ _ _, ?_⟩
            omega
        · exact ⟨hmem, vp, vq, (setMap_ne σ.g_score n p _ hpn).trans hvp,
            (setMap_ne σ.g_score n q _ hqn).trans hvq, hle⟩
    · intro p v hp
      dsimp only at hp ⊢
      have hkey : n ∈ keyCells width height start :=
        get_neighbors_mem_keyCells width height snake current n start hn
      rcases hcond with hnone | ⟨gn, hgn, hlt⟩
      · have hflt : ((keyCells width height start).filter
            fun c => ((setMap σ.g_score n ((σ.g_score current).getD 0 + 1)) c).isSome) =
            insert n ((keyCells width height start).filter
              fun c => (σ.g_score c).isSome) := by
          ext c
          simp only [Finset.mem_filter, Finset.mem_insert]
          constructor
          · rintro ⟨hc, hs⟩
            by_cases hcn : c = n
            · exact Or.inl hcn
            · rw [setMap_ne σ.g_score n c _ hcn] at hs
              exact Or.inr ⟨hc, hs⟩
          · rintro (rfl | ⟨hc, hs⟩)
            · exact ⟨hkey, by rw [setMap_self]; rfl⟩
            · refine ⟨hc, ?_⟩
              by_cases hcn : c = n
              · rw [hcn, setMap_self]; rfl
              · rw [setMap_ne σ.g_score n c _ hcn]; exact hs
        have hnot : n ∉ ((keyCells width height start).filter
            fun c => (σ.g_score c).isSome) := by
          simp [Finset.mem_filter, hnone]
        rw [hflt, Finset.card_insert_of_not_mem hnot]
        by_cases hpn : p = n
        · subst hpn
          rw [setMap_self, Option.some_inj] at hp
          have := hA.g_card current gc hgc
          rw [hT] at hp
          omega
        · rw [setMap_ne σ.g_score n p _ hpn] at hp
          have := hA.g_card p v hp
          omega
      · have hflt : ((keyCells width height start).filter
            fun c => ((setMap σ.g_score n ((σ.g_score current).getD 0 + 1)) c).isSome) =
            ((keyCells width height start).filter fun c => (σ.g_score c).isSome) := by
          ext c
          simp only [Finset.mem_filter]
          constructor
          · rintro ⟨hc, hs⟩
            refine ⟨hc, ?_⟩
            by_cases hcn : c = n
            · rw [hcn, hgn]; rfl
            · rw [setMap_ne σ.g_score n c _ hcn] at hs; exact hs
          · rintro ⟨hc, hs⟩
            refine ⟨hc, ?_⟩
            by_cases hcn : c = n
            · rw [hcn, setMap_self]; rfl
            · rw [setMap_ne σ.g_score n c _ hcn]; exact hs
        rw [hflt]
        by_cases hpn : p = n
        · subst hpn
          rw [setMap_self, Option.some_inj] at hp
          have := hA.g_card p gn hgn
          rw [hT] at hp
          omega
        · rw [setMap_ne σ.g_score n p _ hpn] at hp
          exact hA.g_card p v hp

lemma ainv_relaxList (width height : Nat) (snake : List Pos) (start goal current : Pos) :
    ∀ (nl : List Pos) (σ : AStarState), AInv width height snake start σ →
      (∃ gc, σ.g_score current = some gc) →
      (∀ n ∈ nl, n ∈ get_neighbors width height snake current) →
      AInv width height snake start (nl.foldl (relaxNeighbor goal current) σ) := by
  intro nl
  induction nl with
  | nil => intro σ hA _ _; exact hA
  | cons n rest ih =>
    intro σ hA ⟨gc, hgc⟩ hnl
    rw [List.foldl_cons]
    have hn := hnl n (List.mem_cons_self _ _)
    refine ih _ (ainv_relax width height snake start goal current σ n hA gc hgc hn) ?_
      fun m hm => hnl m (List.mem_cons_of_mem _ hm)
    refine ⟨gc, ?_⟩
    rw [relax_g_of_ne goal current σ n current
      (Ne.symm (get_neighbors_ne width height snake current n hn))]
    exact hgc

lemma ainv_erase (width height : Nat) (snake : List Pos) (start : Pos) (σ : AStarState)
    (e : Nat × Pos) (hA : AInv width height snake start σ) :
    AInv width height snake start { σ with open_set := σ.open_set.erase e } :=
  ⟨hA.g_start, hA.cf_start, hA.dom_free,
    fun e' he' => hA.open_dom e' (List.mem_of_mem_erase he'),
    hA.g_path, hA.cf_none_start, hA.cf_step, hA.g_card⟩

/-- All g values stay at most width*height. -/
lemma ainv_g_le (width height : Nat) (snake : List Pos) (start : Pos) (σ : AStarState)
    (hA : AInv width height snake start σ) (p : Pos) (v : Nat)
    (hp : σ.g_score p = some v) : v ≤ width * height := by
  have h1 := hA.g_card p v hp
  have h2 := Finset.card_le_card
    (Finset.filter_subset (fun c => (σ.g_score c).isSome) (keyCells width height start))
  have h3 := keyCells_card_le width height start
  omega

/-! ### The measure decreases -/

lemma sum_update_le (s : Finset Pos) (f f' : Pos → Nat) (n : Pos) (hn : n ∈ s)
    (hother : ∀ p, p ≠ n → f' p = f p) (hdec : f' n + 2 ≤ f n) :
    Finset.sum s f' + 2 ≤ Finset.sum s f := by
  have h1 : Finset.sum s f' = Finset.sum (s.erase n) f' + f' n :=
    (Finset.sum_erase_add s f' hn).symm
  have h2 : Finset.sum s f = Finset.sum (s.erase n) f + f n :=
    (Finset.sum_erase_add s f hn).symm
  have heq : Finset.sum (s.erase n) f' = Finset.sum (s.erase n) f :=
    Finset.sum_congr rfl fun p hp => hother p (Finset.ne_of_mem_erase hp)
  rw [h1, h2, heq]
  omega

lemma measure_relax (width height : Nat) (snake : List Pos) (start goal current : Pos)
    (σ : AStarState) (n : Pos) (hA : AInv width height snake start σ)
    (gc : Nat) (hgc : σ.g_score current = some gc)
    (hn : n ∈ get_neighbors width height snake current) :
    aMeasure width height start (relaxNeighbor goal current σ n) ≤
      aMeasure width height start σ := by
  rcases relaxNeighbor_eq goal current σ n with he | ⟨hcond, he⟩
  · rw [he]
  · rw [he]
    unfold aMeasure
    have hT : (σ.g_score current).getD 0 + 1 = gc + 1 := by rw [hgc]; rfl
    have hgcle : gc ≤ width * height := ainv_g_le width height snake start σ hA current gc hgc
    have hkey : n ∈ keyCells width height start :=
      get_neighbors_mem_keyCells width height snake current n start hn
    have hsum : Finset.sum (keyCells width height start)
        (gWeight width height { σ with
          came_from := setMap σ.came_from n current,
          g_score := setMap σ.g_score n ((σ.g_score current).getD 0 + 1),
          f_score := setMap σ.f_score n
            ((σ.g_score current).getD 0 + 1 + manhattan_distance n goal),
          open_set := ((σ.g_score current).getD 0 + 1 + manhattan_distance n goal, n) ::
            σ.open_set }) + 2 ≤
        Finset.sum (keyCells width height start) (gWeight width height σ) := by
      apply sum_update_le _ _ _ n hkey
      · intro p hpn
        unfold gWeight
        dsimp only
        rw [setMap_ne σ.g_score n p _ hpn]
      · unfold gWeight
        dsimp only
        rw [setMap_self, hT]
        rcases hcond with hnone | ⟨gn, hgn, hlt⟩
        · rw [hnone]
          show 2 * (gc + 1) + 2 ≤ 2 * (width * height + 2)
          omega
        · rw [hgn]
          show 2 * (gc + 1) + 2 ≤ 2 * gn
          rw [hT] at hlt
          omega
    have hlen : (({ σ with
          came_from := setMap σ.came_from n current,
          g_score := setMap σ.g_score n ((σ.g_score current).getD 0 + 1),
          f_score := setMap σ.f_score n
            ((σ.g_score current).getD 0 + 1 + manhattan_distance n goal),
          open_set := ((σ.g_score current).getD 0 + 1 + manhattan_distance n goal, n) ::
            σ.open_set } : AStarState)).open_set.length = σ.open_set.length + 1 := by
      dsimp only
      exact List.length_cons _ _
    rw [hlen]
    omega

lemma measure_relaxList (width height : Nat) (snake : List Pos) (start goal current : Pos) :
    ∀ (nl : List Pos) (σ : AStarState), AInv width height snake start σ →
      (∃ gc, σ.g_score current = some gc) →
      (∀ n ∈ nl, n ∈ get_neighbors width height snake current) →
      aMeasure width height start (nl.foldl (relaxNeighbor goal current) σ) ≤
        aMeasure width height start σ := by
  intro nl
  induction nl with
  | nil => intro σ _ _ _; exact le_rfl
  | cons n rest ih =>
    intro σ hA ⟨gc, hgc⟩ hnl
    rw [List.foldl_cons]
    have hn := hnl n (List.mem_cons_self _ _)
    refine le_trans (ih _ (ainv_relax width height snake start goal current σ n hA gc hgc hn)
      ⟨gc, ?_⟩ fun m hm => hnl m (List.mem_cons_of_mem _ hm))
      (measure_relax width height snake start goal current σ n hA gc hgc hn)
    rw [relax_g_of_ne goal current σ n current
      (Ne.symm (get_neighbors_ne width height snake current n hn))]
    exact hgc

lemma measure_erase (width height : Nat) (start : Pos) (σ : AStarState) (e : Nat × Pos)
    (he : e ∈ σ.open_set) :
    aMeasure width height start { σ with open_set := σ.open_set.erase e } + 1 =
      aMeasure width height start σ := by
  unfold aMeasure
  dsimp only
  have h1 : (σ.open_set.erase e).length = σ.open_set.length - 1 :=
    List.length_erase_of_mem he
  have h2 : 0 < σ.open_set.length := List.length_pos_of_mem he
  have h3 : Finset.sum (keyCells width height start)
      (gWeight width height { σ with open_set := σ.open_set.erase e }) =
      Finset.sum (keyCells width height start) (gWeight width height σ) := rfl
  omega

/-! ### Fuel sufficiency of the A* loop -/

lemma recon_isSome (width height : Nat) (snake : List Pos) (start : Pos) (σ : AStarState)
    (hA : AInv width height snake start σ) :
    ∀ (fuelR : Nat) (c : Pos) (v : Nat) (acc : List Pos), σ.g_score c = some v →
      v < fuelR → (reconstructPath σ.came_from fuelR c acc).isSome := by
  intro fuelR
  induction fuelR with
  | zero => intro c v acc _ hv; exact absurd hv (Nat.not_lt_zero _)
  | succ f ih =>
    intro c v acc hc hv
    cases hcf : σ.came_from c with
    | none => simp [reconstructPath, hcf]
    | some prev =>
      simp only [reconstructPath, hcf]
      obtain ⟨_, vp, vq, hvp, hvq, hle⟩ := hA.cf_step c prev hcf
      rw [hc] at hvp
      rw [Option.some_inj] at hvp
      exact ih prev vq (acc ++ [c]) hvq (by omega)

lemma aStarLoop_isSome (width height : Nat) (snake : List Pos) (start goal : Pos) :
    ∀ (fuel : Nat) (σ : AStarState), AInv width height snake start σ →
      aMeasure width height start σ < fuel →
      (aStarLoop width height snake goal fuel σ).isSome := by
  intro fuel
  induction fuel with
  | zero => intro σ _ h; exact absurd h (Nat.not_lt_zero _)
  | succ f ih =>
    intro σ hA hm
    cases hme : minEntry σ.open_set with
    | none =>
      rw [aStarLoop_succ_none width height snake goal f σ hme]
      rfl
    | some e =>
      have hmem := minEntry_mem _ _ hme
      by_cases hg : e.2 = goal
      · rw [aStarLoop_succ_goal width height snake goal f σ e hme hg]
        obtain ⟨v, hv, _⟩ := hA.open_dom e hmem
        apply recon_isSome width height snake start σ hA _ e.2 v [] hv
        have := ainv_g_le width height snake start σ hA e.2 v hv
        unfold reconFuel
        omega
      · rw [aStarLoop_succ_step width height snake goal f σ e hme hg]
        have hA1 := ainv_erase width height snake start σ e hA
        have hcur : ∃ gc, ({ σ with open_set := σ.open_set.erase e } :
            AStarState).g_score e.2 = some gc := by
          obtain ⟨v, hv, _⟩ := hA.open_dom e hmem
          exact ⟨v, hv⟩
        apply ih
        · unfold relaxAll
          exact ainv_relaxList width height snake start goal e.2 _ _ hA1 hcur fun n hn => hn
        · have hle : aMeasure width height start
              (relaxAll width height snake goal e.2
                { σ with open_set := σ.open_set.erase e }) ≤
              aMeasure width height start { σ with open_set := σ.open_set.erase e } := by
            unfold relaxAll
            exact measure_relaxList width height snake start goal e.2 _ _ hA1 hcur
              fun n hn => hn
          have heq := measure_erase width height start σ e hmem
          omega

/-! ### The initial state -/

lemma ainv_init (width height : Nat) (snake : List Pos) (start goal : Pos) :
    AInv width height snake start (aStarInit start goal) := by
  have hsm : ∀ q : Pos, (aStarInit start goal).g_score q =
      setMap (fun _ => none) start 0 q := fun _ => rfl
  have hcf0 : ∀ q : Pos, (aStarInit start goal).came_from q = none := fun _ => rfl
  have hop : (aStarInit start goal).open_set = [(0, start)] := rfl
  refine ⟨?_, ?_, ?_, ?_, ?_, ?_, ?_, ?_⟩
  · rw [hsm]
    exact setMap_self _ _ _
  · exact hcf0 start
  · intro p hp
    rw [hsm] at hp
    by_cases hps : p = start
    · exact Or.inl hps
    · rw [setMap_ne _ _ _ _ hps] at hp
      simp at hp
  · intro e he
    rw [hop] at he
    have he2 : e = (0, start) := by simpa using he
    subst he2
    refine ⟨0, ?_, le_rfl⟩
    rw [hsm]
    exact setMap_self _ _ _
  · intro p v hp
    rw [hsm] at hp
    by_cases hps : p = start
    · subst hps
      rw [setMap_self, Option.some_inj] at hp
      subst hp
      exact ⟨[], rfl, le_rfl⟩
    · rw [setMap_ne _ _ _ _ hps] at hp
      cases hp
  · intro p hp _
    rw [hsm] at hp
    by_cases hps : p = start
    · exact hps
    · rw [setMap_ne _ _ _ _ hps] at hp
      simp at hp
  · intro p q hcf2
    rw [hcf0] at hcf2
    cases hcf2
  · intro p v hp
    rw [hsm] at hp
    by_cases hps : p = start
    · subst hps
      rw [setMap_self, Option.some_inj] at hp
      subst hp
      have hmem : p ∈ (keyCells width height p).filter
          fun c => ((aStarInit p goal).g_score c).isSome := by
        rw [Finset.mem_filter]
        refine ⟨Finset.mem_insert_self _ _, ?_⟩
        rw [hsm, setMap_self]
        rfl
      have := Finset.card_pos.mpr ⟨p, hmem⟩
      omega
    · rw [setMap_ne _ _ _ _ hps] at hp
      cases hp

lemma measure_init_lt (width height : Nat) (start goal : Pos) :
    aMeasure width height start (aStarInit start goal) < astarFuel width height := by
  have hsm : ∀ q : Pos, (aStarInit start goal).g_score q =
      setMap (fun _ => none) start 0 q := fun _ => rfl
  unfold aMeasure astarFuel
  have hbound : Finset.sum (keyCells width height start)
      (gWeight width height (aStarInit start goal)) ≤
      (keyCells width height start).card * (2 * (width * height + 2)) := by
    apply Finset.sum_le_card_nsmul
    intro p _
    unfold gWeight
    rw [hsm]
    by_cases hps : p = start
    · rw [hps, setMap_self]
      show 2 * 0 ≤ 2 * (width * height + 2)
      omega
    · rw [setMap_ne _ _ _ _ hps]
  have hcard := keyCells_card_le width height start
  have hlen : (aStarInit start goal).open_set.length = 1 := rfl
  have harith : (width * height + 1) * (2 * (width * height + 2)) =
      2 * (width * height + 1) * (width * height + 2) := by ring
  have hmul : (keyCells width height start).card * (2 * (width * height + 2)) ≤
      (width * height + 1) * (2 * (width * height + 2)) :=
    Nat.mul_le_mul_right _ hcard
  omega

/-! ### What the reconstructed path looks like -/

lemma ainv_step (width height : Nat) (snake : List Pos) (start goal : Pos)
    (σ : AStarState) (e : Nat × Pos) (hA : AInv width height snake start σ)
    (hmem : e ∈ σ.open_set) :
    AInv width height snake start
      (relaxAll width height snake goal e.2 { σ with open_set := σ.open_set.erase e }) := by
  have hA1 := ainv_erase width height snake start σ e hA
  obtain ⟨v, hv, _⟩ := hA.open_dom e hmem
  unfold relaxAll
  exact ainv_relaxList width height snake start goal e.2 _ _ hA1 ⟨v, hv⟩ fun n hn => hn

/-- Chain shape of the reconstruction: the result is the reversed visit
list before the accumulator, the visit list reversed is a valid path from
start to the popped cell, its length is bounded by the cell's g value, all
its members have a parent, and it is empty exactly when the popped cell
has no parent. -/
lemma recon_general (width height : Nat) (snake : List Pos) (start : Pos) (σ : AStarState)
    (hA : AInv width height snake start σ) :
    ∀ (fuelR : Nat) (c : Pos) (v : Nat) (acc r : List Pos), σ.g_score c = some v →
      reconstructPath σ.came_from fuelR c acc = some r →
      ∃ chain, r = chain.reverse ++ acc.reverse ∧
        ValidPath width height snake start chain.reverse c ∧
        chain.length ≤ v ∧
        (∀ x ∈ chain, (σ.came_from x).isSome) ∧
        (chain = [] ↔ σ.came_from c = none) := by
  intro fuelR
  induction fuelR with
  | zero =>
    intro c v acc r _ h
    simp [reconstructPath] at h
  | succ f ih =>
    intro c v acc r hc h
    cases hcf : σ.came_from c with
    | none =>
      simp only [reconstructPath, hcf] at h
      rw [Option.some_inj] at h
      refine ⟨[], by rw [← h]; simp, ?_, by simp, by simp, by simp [hcf]⟩
      have hcs := hA.cf_none_start c (by rw [hc]; rfl) hcf
      exact hcs.symm
    | some prev =>
      simp only [reconstructPath, hcf] at h
      obtain ⟨hmem, vp, vq, hvp, hvq, hle⟩ := hA.cf_step c prev hcf
      rw [hc] at hvp
      rw [Option.some_inj] at hvp
      subst hvp
      obtain ⟨chain2, hr, hvpath, hlen, hall, _⟩ := ih prev vq (acc ++ [c]) r hvq h
      refine ⟨c :: chain2, ?_, ?_, by simp; omega, ?_, by simp [hcf]⟩
      · rw [hr]
        simp [List.reverse_append]
      · rw [List.reverse_cons]
        exact validPath_snoc width height snake chain2.reverse start prev c hvpath hmem
      · intro x hx
        rcases List.mem_cons.mp hx with rfl | hx
        · rw [hcf]; rfl
        · exact hall x hx

/-- Soundness of the loop result: a returned non-empty result is a valid
path from start to the goal, ends at the goal, avoids the start cell, and
is no longer than the board area. -/
lemma aStarLoop_sound (width height : Nat) (snake : List Pos) (start goal : Pos) :
    ∀ (fuel : Nat) (σ : AStarState) (r : List Pos), AInv width height snake start σ →
      aStarLoop width height snake goal fuel σ = some r →
      r = [] ∨ (ValidPath width height snake start r goal ∧ r.getLast? = some goal ∧
        start ∉ r ∧ r.length ≤ width * height) := by
  intro fuel
  induction fuel with
  | zero =>
    intro σ r _ h
    simp [aStarLoop] at h
  | succ f ih =>
    intro σ r hA h
    cases hme : minEntry σ.open_set with
    | none =>
      rw [aStarLoop_succ_none width height snake goal f σ hme] at h
      rw [Option.some_inj] at h
      exact Or.inl h.symm
    | some e =>
      by_cases hg : e.2 = goal
      · rw [aStarLoop_succ_goal width height snake goal f σ e hme hg] at h
        have hmem := minEntry_mem _ _ hme
        obtain ⟨v, hv, _⟩ := hA.open_dom e hmem
        obtain ⟨chain, hr, hvpath, hlen, hall, _⟩ :=
          recon_general width height snake start σ hA (reconFuel width height) e.2 v [] r hv h
        rw [hg] at hvpath
        cases hchain : chain with
        | nil =>
          left
          rw [hr, hchain]
          rfl
        | cons c t =>
          right
          have hrr : r = chain.reverse := by rw [hr]; simp
          have hrne : r ≠ [] := by
            rw [hrr, hchain]
            simp
          have hvr : ValidPath width height snake start r goal := by
            rw [hrr]; exact hvpath
          refine ⟨hvr, validPath_last width height snake r start goal hvr hrne, ?_, ?_⟩
          · intro hsr
            have hx : start ∈ chain := by
              rw [hrr] at hsr
              exact List.mem_reverse.mp hsr
            have := hall start hx
            rw [hA.cf_start] at this
            simp at this
          · have hvle := ainv_g_le width height snake start σ hA e.2 v hv
            rw [hrr]
            rw [List.length_reverse]
            omega
      · rw [aStarLoop_succ_step width height snake goal f σ e hme hg] at h
        exact ih _ r (ainv_step width height snake start goal σ e hA (minEntry_mem _ _ hme)) h

/-! ### Facts about the cells of a fixed shortest path -/

lemma pathCell_split (width height : Nat) (snake : List Pos) (start goal : Pos)
    (π : List Pos) (hπ : ValidPath width height snake start π goal) (i : Nat)
    (hi : i ≤ π.length) :
    ValidPath width height snake start (π.take i) (pathCell start π i) ∧
      ValidPath width height snake (pathCell start π i) (π.drop i) goal :=
  validPath_split width height snake π start goal i hπ hi

lemma pathCell_last (width height : Nat) (snake : List Pos) (start goal : Pos)
    (π : List Pos) (hπ : ValidPath width height snake start π goal) :
    pathCell start π π.length = goal := by
  have h := (pathCell_split width height snake start goal π hπ π.length le_rfl).2
  rw [List.drop_length] at h
  exact h

lemma pathCell_step (width height : Nat) (snake : List Pos) (start goal : Pos)
    (π : List Pos) (hπ : ValidPath width height snake start π goal) (i : Nat)
    (hi : i < π.length) :
    pathCell start π (i + 1) ∈ get_neighbors width height snake (pathCell start π i) := by
  have h := (pathCell_split width height snake start goal π hπ i (Nat.le_of_lt hi)).2
  rw [List.drop_eq_getElem_cons hi] at h
  have hc : pathCell start π (i + 1) = π[i] := by
    unfold pathCell
    rw [List.getD_cons_succ]
    exact List.getD_eq_getElem π (0, 0) hi
  rw [hc]
  exact h.1

lemma pathCell_min (width height : Nat) (snake : List Pos) (start goal : Pos)
    (π : List Pos) (hπ : ValidPath width height snake start π goal)
    (hmin : ∀ l, ValidPath width height snake start l goal → π.length ≤ l.length)
    (σ : AStarState) (hA : AInv width height snake start σ) (i : Nat)
    (hi : i ≤ π.length) (v : Nat) (hv : σ.g_score (pathCell start π i) = some v) :
    i ≤ v := by
  obtain ⟨l, hl, hlen⟩ := hA.g_path _ v hv
  have h2 := (pathCell_split width height snake start goal π hπ i hi).2
  have h3 := validPath_append width height snake l (π.drop i) start _ goal hl h2
  have h4 := hmin _ h3
  rw [List.length_append, List.length_drop] at h4
  omega

lemma pathCell_manhattan (width height : Nat) (snake : List Pos) (start goal : Pos)
    (π : List Pos) (hπ : ValidPath width height snake start π goal) (i : Nat)
    (hi : i ≤ π.length) :
    manhattan_distance (pathCell start π i) goal ≤ π.length - i := by
  have h2 := (pathCell_split width height snake start goal π hπ i hi).2
  have h3 := manhattan_le_path width height snake (π.drop i) _ goal h2
  rw [List.length_drop] at h3
  exact h3

/-! ### Preservation of the goal-tracking invariant -/

lemma goalInv_relax (goal current : Pos) (σ : AStarState) (n : Pos)
    (hG : GoalInv goal σ) : GoalInv goal (relaxNeighbor goal current σ n) := by
  intro hs
  rcases relaxNeighbor_eq goal current σ n with he | ⟨hcond, he⟩
  · rw [he] at hs ⊢
    exact hG hs
  · by_cases hgn : goal = n
    · subst hgn
      refine ⟨(σ.g_score current).getD 0 + 1 + manhattan_distance goal goal, ?_⟩
      rw [he]
      exact List.mem_cons_self _ _
    · have hs2 : (setMap σ.g_score n ((σ.g_score current).getD 0 + 1) goal).isSome := by
        rw [he] at hs
        exact hs
      rw [setMap_ne _ _ _ _ hgn] at hs2
      obtain ⟨f0, hf0⟩ := hG hs2
      refine ⟨f0, ?_⟩
      rw [he]
      exact List.mem_cons_of_mem _ hf0

lemma goalInv_relaxList (goal current : Pos) :
    ∀ (nl : List Pos) (σ : AStarState), GoalInv goal σ →
      GoalInv goal (nl.foldl (relaxNeighbor goal current) σ) := by
  intro nl
  induction nl with
  | nil => intro σ hG; exact hG
  | cons n rest ih =>
    intro σ hG
    rw [List.foldl_cons]
    exact ih _ (goalInv_relax goal current σ n hG)

lemma goalInv_erase (goal : Pos) (σ : AStarState) (e : Nat × Pos)
    (hG : GoalInv goal σ) (hne : e.2 ≠ goal) :
    GoalInv goal { σ with open_set := σ.open_set.erase e } := by
  intro hs
  obtain ⟨f0, hf0⟩ := hG hs
  refine ⟨f0, ?_⟩
  apply (List.mem_erase_of_ne ?_).mpr hf0
  intro hq
  exact hne (by rw [← hq])

/-! ### Two finer relaxation lemmas for the optimality argument -/

/-- Three-way case analysis of relaxNeighbor carrying the failed test. -/
lemma relaxNeighbor_cases (goal current : Pos) (σ : AStarState) (n : Pos) :
    (∃ gn, σ.g_score n = some gn ∧ ¬ ((σ.g_score current).getD 0 + 1 < gn) ∧
      relaxNeighbor goal current σ n = σ) ∨
    ((σ.g_score n = none ∨
        ∃ gn, σ.g_score n = some gn ∧ (σ.g_score current).getD 0 + 1 < gn) ∧
      relaxNeighbor goal current σ n =
        { σ with
          came_from := setMap σ.came_from n current,
          g_score := setMap σ.g_score n ((σ.g_score current).getD 0 + 1),
          f_score := setMap σ.f_score n
            ((σ.g_score current).getD 0 + 1 + manhattan_distance n goal),
          open_set := ((σ.g_score current).getD 0 + 1 + manhattan_distance n goal, n) ::
            σ.open_set }) := by
  unfold relaxNeighbor
  dsimp only
  split
  · rename_i hg
    right
    exact ⟨Or.inl hg, rfl⟩
  · rename_i gn hg
    split
    · rename_i hlt
      right
      exact ⟨Or.inr ⟨gn, hg, hlt⟩, rfl⟩
    · rename_i hlt
      left
      exact ⟨gn, hg, hlt, rfl⟩

/-- Relaxing a neighbor list containing n from a state where the popped
cell has value gc leaves n with a g value of at most gc + 1. -/
lemma relaxList_g_reaches (goal current : Pos) :
    ∀ (nl : List Pos) (σ : AStarState) (n : Pos) (gc : Nat), n ∈ nl →
      σ.g_score current = some gc → (∀ m ∈ nl, m ≠ current) →
      ∃ v' ≤ gc + 1, (nl.foldl (relaxNeighbor goal current) σ).g_score n = some v' := by
  intro nl
  induction nl with
  | nil => intro σ n gc hn; simp at hn
  | cons m rest ih =>
    intro σ n gc hn hgc hne
    rw [List.foldl_cons]
    have hcurm : (relaxNeighbor goal current σ m).g_score current = some gc := by
      rw [relax_g_of_ne goal current σ m current
        (Ne.symm (hne m (List.mem_cons_self _ _)))]
      exact hgc
    rcases List.mem_cons.mp hn with rfl | hn2
    · have hstep : ∃ w ≤ gc + 1, (relaxNeighbor goal current σ n).g_score n = some w := by
        rcases relaxNeighbor_cases goal current σ n with ⟨gn, hgn, hnlt, he⟩ | ⟨_, he⟩
        · rw [hgc] at hnlt
          refine ⟨gn, by simpa using hnlt, ?_⟩
          rw [he]
          exact hgn
        · have hT : (σ.g_score current).getD 0 + 1 = gc + 1 := by rw [hgc]; rfl
          refine ⟨gc + 1, le_rfl, ?_⟩
          rw [he, ← hT]
          exact setMap_self _ _ _
      obtain ⟨w, hw_le, hw⟩ := hstep
      obtain ⟨w2, hw2_le, hw2⟩ := relaxList_g_defined goal current rest _ n w hw
      exact ⟨w2, by omega, hw2⟩
    · exact ih _ n gc hn2 hcurm fun p hp => hne p (List.mem_cons_of_mem _ hp)

/-- If a cell ends the relaxation pass with a strictly smaller g value than
it started with (or fresh), the pass pushed a matching frontier entry. -/
lemma relaxList_entry_of_g_lt (goal current : Pos) :
    ∀ (nl : List Pos) (σ : AStarState) (n : Pos) (w : Nat),
      (nl.foldl (relaxNeighbor goal current) σ).g_score n = some w →
      (σ.g_score n = none ∨ ∃ v, σ.g_score n = some v ∧ w < v) →
      (w + manhattan_distance n goal, n) ∈
        (nl.foldl (relaxNeighbor goal current) σ).open_set := by
  intro nl
  induction nl with
  | nil =>
    intro σ n w hw hcond
    rw [List.foldl_nil] at hw ⊢
    rcases hcond with hnone | ⟨v, hv, hlt⟩
    · rw [hw] at hnone; cases hnone
    · rw [hw] at hv
      rw [Option.some_inj] at hv
      omega
  | cons m rest ih =>
    intro σ n w hw hcond
    rw [List.foldl_cons] at hw ⊢
    by_cases hnm : n = m
    · subst hnm
      rcases relaxNeighbor_cases goal current σ n with ⟨gn, hgn, hnlt, he⟩ | ⟨_, he⟩
      · rw [he] at hw ⊢
        exact ih σ n w hw hcond
      · rw [he] at hw ⊢
        rcases relaxList_g_mono goal current rest _ n w hw with hnone2 | ⟨v, hv, hwv⟩
        · have h2 : (setMap σ.g_score n ((σ.g_score current).getD 0 + 1)) n = none := hnone2
          rw [setMap_self] at h2
          cases h2
        · have hvT : v = (σ.g_score current).getD 0 + 1 := by
            have h2 : (setMap σ.g_score n ((σ.g_score current).getD 0 + 1)) n = some v := hv
            rw [setMap_self, Option.some_inj] at h2
            exact h2.symm
          by_cases hwT : w = v
          · subst hwT
            apply relaxList_open_mono goal current rest
            rw [hvT]
            exact List.mem_cons_self _ _
          · apply ih _ n w hw
            right
            refine ⟨v, ?_, by omega⟩
            rw [hvT]
            exact setMap_self _ _ _
    · have hgn2 : (relaxNeighbor goal current σ m).g_score n = σ.g_score n :=
        relax_g_of_ne goal current σ m n hnm
      apply ih _ n w hw
      rw [hgn2]
      exact hcond

/-! ### Preservation of the optimality invariant -/

lemma optInv_step (width height : Nat) (snake : List Pos) (start goal : Pos)
    (π : List Pos) (hπ : ValidPath width height snake start π goal)
    (hmin : ∀ l, ValidPath width height snake start l goal → π.length ≤ l.length)
    (σ : AStarState) (e : Nat × Pos)
    (hA : AInv width height snake start σ)
    (hO : OptInv goal start π σ)
    (hmem : e ∈ σ.open_set) :
    OptInv goal start π
      (relaxAll width height snake goal e.2 { σ with open_set := σ.open_set.erase e }) := by
  have hA1 := ainv_erase width height snake start σ e hA
  have hA' := ainv_step width height snake start goal σ e hA hmem
  obtain ⟨gc, hgc, hgcle⟩ := hA.open_dom e hmem
  intro i hi hgi
  unfold relaxAll at hgi hA' ⊢
  rcases relaxList_g_mono goal e.2 _ _ (pathCell start π i) i hgi with hnone | ⟨v, hv, hiv⟩
  · right
    refine ⟨i + manhattan_distance (pathCell start π i) goal, ?_, le_rfl⟩
    exact relaxList_entry_of_g_lt goal e.2 _ _ (pathCell start π i) i hgi (Or.inl hnone)
  · by_cases hvi : v = i
    · rw [hvi] at hv
      have hOi := hO i hi (show σ.g_score (pathCell start π i) = some i from hv)
      rcases hOi with hnext | ⟨f0, hf0, hf0le⟩
      · left
        obtain ⟨w, hw_le, hw⟩ :=
          relaxList_g_defined goal e.2 _ { σ with open_set := σ.open_set.erase e }
            (pathCell start π (i + 1)) (i + 1)
            (show ({ σ with open_set := σ.open_set.erase e } :
              AStarState).g_score (pathCell start π (i + 1)) = some (i + 1) from hnext)
        have hwmin := pathCell_min width height snake start goal π hπ hmin _ hA'
          (i + 1) (by omega) w hw
        have hwe : w = i + 1 := by omega
        rw [hwe] at hw
        exact hw
      · by_cases hef : e = (f0, pathCell start π i)
        · have he2 : e.2 = pathCell start π i := by rw [hef]
          have hcur : ({ σ with open_set := σ.open_set.erase e } :
              AStarState).g_score e.2 = some i := by
            rw [he2]
            exact hv
          have hstep := pathCell_step width height snake start goal π hπ i hi
          rw [← he2] at hstep
          obtain ⟨w, hw_le, hw⟩ := relaxList_g_reaches goal e.2 _
            { σ with open_set := σ.open_set.erase e } (pathCell start π (i + 1)) i
            hstep hcur
            (fun m hm => get_neighbors_ne width height snake e.2 m hm)
          have hwmin := pathCell_min width height snake start goal π hπ hmin _ hA'
            (i + 1) (by omega) w hw
          left
          have hwe : w = i + 1 := by omega
          rw [hwe] at hw
          exact hw
        · right
          refine ⟨f0, ?_, hf0le⟩
          apply relaxList_open_mono goal e.2
          exact (List.mem_erase_of_ne fun h => hef h.symm).mpr hf0
    · right
      refine ⟨i + manhattan_distance (pathCell start π i) goal, ?_, le_rfl⟩
      exact relaxList_entry_of_g_lt goal e.2 _ _ (pathCell start π i) i hgi
        (Or.inr ⟨v, hv, by omega⟩)

/-- Walking the optimality invariant along the shortest path: either the
goal already has a g value at most the shortest length, or some frontier
entry has an f value at most the shortest length. -/
lemma optInv_chain (width height : Nat) (snake : List Pos) (start goal : Pos)
    (π : List Pos) (hπ : ValidPath width height snake start π goal)
    (σ : AStarState) (hO : OptInv goal start π σ) :
    ∀ (m i : Nat), i ≤ π.length → π.length - i = m →
      σ.g_score (pathCell start π i) = some i →
      (∃ v ≤ π.length, σ.g_score goal = some v) ∨
      (∃ en ∈ σ.open_set, en.1 ≤ π.length) := by
  intro m
  induction m with
  | zero =>
    intro i hi hmi hgi
    have hik : i = π.length := by omega
    rw [hik, pathCell_last width height snake start goal π hπ] at hgi
    exact Or.inl ⟨π.length, le_rfl, hgi⟩
  | succ m ih =>
    intro i hi hmi hgi
    have hik : i < π.length := by omega
    rcases hO i hik hgi with hnext | ⟨f0, hf0, hf0le⟩
    · exact ih (i + 1) (by omega) (by omega) hnext
    · right
      refine ⟨(f0, pathCell start π i), hf0, ?_⟩
      have hman := pathCell_manhattan width height snake start goal π hπ i (Nat.le_of_lt hik)
      dsimp only
      omega

/-! ### Invariants at the initial state -/

lemma optInv_init (start goal : Pos) (π : List Pos) :
    OptInv goal start π (aStarInit start goal) := by
  intro i hi hgi
  have hsm : (aStarInit start goal).g_score (pathCell start π i) =
      setMap (fun _ => none) start 0 (pathCell start π i) := rfl
  rw [hsm] at hgi
  by_cases hps : pathCell start π i = start
  · rw [hps, setMap_self] at hgi
    rw [Option.some_inj] at hgi
    right
    refine ⟨0, ?_, by omega⟩
    rw [hps]
    exact List.mem_cons_self _ _
  · rw [setMap_ne _ _ _ _ hps] at hgi
    cases hgi

lemma goalInv_init (start goal : Pos) : GoalInv goal (aStarInit start goal) := by
  intro hs
  have hsm : (aStarInit start goal).g_score goal =
      setMap (fun _ => none) start 0 goal := rfl
  rw [hsm] at hs
  by_cases hgs : goal = start
  · refine ⟨0, ?_⟩
    rw [hgs]
    exact List.mem_cons_self _ _
  · rw [setMap_ne _ _ _ _ hgs] at hs
    simp at hs

/-! ### Optimality and completeness of the loop -/

lemma aStarLoop_opt (width height : Nat) (snake : List Pos) (start goal : Pos)
    (π : List Pos) (hπ : ValidPath width height snake start π goal)
    (hmin : ∀ l, ValidPath width height snake start l goal → π.length ≤ l.length) :
    ∀ (fuel : Nat) (σ : AStarState) (r : List Pos),
      AInv width height snake start σ → OptInv goal start π σ → GoalInv goal σ →
      aStarLoop width height snake goal fuel σ = some r →
      r.length ≤ π.length ∧ (r = [] → start = goal) := by
  intro fuel
  induction fuel with
  | zero =>
    intro σ r _ _ _ h
    simp [aStarLoop] at h
  | succ f ih =>
    intro σ r hA hO hG h
    have hchain := optInv_chain width height snake start goal π hπ σ hO
      (π.length - 0) 0 (by omega) rfl
      (show σ.g_score (pathCell start π 0) = some 0 from hA.g_start)
    cases hme : minEntry σ.open_set with
    | none =>
      exfalso
      have hopen : σ.open_set = [] := minEntry_eq_none _ hme
      rcases hchain with ⟨v, hvk, hva⟩ | ⟨en, hen, _⟩
      · obtain ⟨f0, hf0⟩ := hG (by rw [hva]; rfl)
        rw [hopen] at hf0
        simp at hf0
      · rw [hopen] at hen
        simp at hen
    | some e =>
      have hmem := minEntry_mem _ _ hme
      by_cases hg : e.2 = goal
      · rw [aStarLoop_succ_goal width height snake goal f σ e hme hg] at h
        obtain ⟨vg, hvg, hvgle⟩ := hA.open_dom e hmem
        rw [hg] at hvg
        have hvk : vg ≤ π.length := by
          rcases hchain with ⟨v, hvk2, hva⟩ | ⟨en, hen, henk⟩
          · rw [hva] at hvg
            rw [Option.some_inj] at hvg
            omega
          · have hle := minEntry_le _ _ hme en hen
            have hfst := entryLe_fst _ _ hle
            omega
        obtain ⟨chain, hr, hvpath, hlen, hall, hiff⟩ :=
          recon_general width height snake start σ hA (reconFuel width height) e.2 vg [] r
            (by rw [hg]; exact hvg) h
        constructor
        · rw [hr]
          simp only [List.reverse_nil, List.append_nil, List.length_reverse]
          omega
        · intro hre
          have hchain_nil : chain = [] := by
            rw [hre] at hr
            have h2 := hr.symm
            simpa using h2
          have hcf := hiff.mp hchain_nil
          have hstart := hA.cf_none_start e.2 (by rw [hg, hvg]; rfl) hcf
          rw [hg] at hstart
          exact hstart.symm
      · rw [aStarLoop_succ_step width height snake goal f σ e hme hg] at h
        have hA' := ainv_step width height snake start goal σ e hA hmem
        have hO' := optInv_step width height snake start goal π hπ hmin σ e hA hO hmem
        have hG' : GoalInv goal (relaxAll width height snake goal e.2
            { σ with open_set := σ.open_set.erase e }) := by
          unfold relaxAll
          exact goalInv_relaxList goal e.2 _ _ (goalInv_erase goal σ e hG hg)
        exact ih _ r hA' hO' hG' h

/-! ### The reference BFS -/

lemma validPath_concat (width height : Nat) (snake : List Pos) :
    ∀ (l2 : List Pos) (a c b : Pos),
      ValidPath width height snake a (l2 ++ [c]) b →
      c = b ∧ ∃ m, ValidPath width height snake a l2 m ∧
        c ∈ get_neighbors width height snake m := by
  intro l2
  induction l2 with
  | nil =>
    intro a c b h
    exact ⟨h.2, a, rfl, h.1⟩
  | cons d t ih =>
    intro a c b h
    obtain ⟨hcb, m, hm, hc⟩ := ih d c b h.2
    exact ⟨hcb, m, ⟨h.1, hm⟩, hc⟩

/-- Membership in the BFS level sets is reachability within that many steps. -/
lemma mem_specReach (width height : Nat) (snake : List Pos) (start : Pos) :
    ∀ (n : Nat) (p : Pos),
      p ∈ specReach width height snake start n ↔
      ∃ l, ValidPath width height snake start l p ∧ l.length ≤ n := by
  intro n
  induction n with
  | zero =>
    intro p
    simp only [specReach, Finset.mem_singleton]
    constructor
    · rintro rfl
      exact ⟨[], rfl, by simp⟩
    · rintro ⟨l, hl, hlen⟩
      have hnil : l = [] := List.length_eq_zero.mp (by omega)
      subst hnil
      exact hl.symm
  | succ n ih =>
    intro p
    simp only [specReach, Finset.mem_union, Finset.mem_biUnion, List.mem_toFinset]
    constructor
    · rintro (hp | ⟨q, hq, hp⟩)
      · obtain ⟨l, hl, hlen⟩ := (ih p).mp hp
        exact ⟨l, hl, by omega⟩
      · obtain ⟨l, hl, hlen⟩ := (ih q).mp hq
        refine ⟨l ++ [p], validPath_snoc width height snake l start q p hl hp, ?_⟩
        rw [List.length_append]
        simp only [List.length_singleton]
        omega
    · rintro ⟨l, hl, hlen⟩
      rcases List.eq_nil_or_concat l with rfl | ⟨l2, c, rfl⟩
      · left
        exact (ih p).mpr ⟨[], hl, by simp⟩
      · rw [List.concat_eq_append] at hl hlen
        obtain ⟨hcb, m, hm, hc⟩ := validPath_concat width height snake l2 start c p hl
        right
        rw [List.length_append] at hlen
        simp only [List.length_singleton] at hlen
        refine ⟨m, (ih m).mpr ⟨l2, hm, by omega⟩, ?_⟩
        rw [← hcb]
        exact hc

/-- The linear scan of bfsSearch returns the least level containing the goal. -/
lemma bfsSearch_finds (width height : Nat) (snake : List Pos) (start goal : Pos) :
    ∀ (fuel n0 k : Nat), n0 ≤ k → k < n0 + fuel →
      goal ∈ specReach width height snake start k →
      (∀ j, n0 ≤ j → j < k → goal ∉ specReach width height snake start j) →
      bfsSearch width height snake start goal fuel n0 = some k := by
  intro fuel
  induction fuel with
  | zero =>
    intro n0 k h1 h2 _ _
    omega
  | succ f ih =>
    intro n0 k h1 h2 hmem hnot
    by_cases h0 : goal ∈ specReach width height snake start n0
    · have hk : n0 = k := by
        by_contra hnk
        exact hnot n0 le_rfl (by omega) h0
      simp only [bfsSearch]
      rw [if_pos h0, hk]
    · have hn0k : n0 ≠ k := fun he => h0 (he ▸ hmem)
      simp only [bfsSearch]
      rw [if_neg h0]
      exact ih (n0 + 1) k (by omega) (by omega) hmem fun j hj1 hj2 => hnot j (by omega) hj2

/-! ### Special runs of the search -/

/-- When start = goal the very first pop succeeds with an empty chain. -/
lemma astar_self (width height : Nat) (snake : List Pos) (start : Pos) :
    a_star_pathfind width height snake start start = [] := by
  unfold a_star_pathfind
  have hfuel : astarFuel width height =
      (2 * (width * height + 1) * (width * height + 2) + 1) + 1 := rfl
  rw [hfuel]
  rw [aStarLoop_succ_goal width height snake start
    (2 * (width * height + 1) * (width * height + 2) + 1) (aStarInit start start)
    (0, start) rfl rfl]
  rfl

/-- With the goal on the snake and away from the start, the loop can never
pop the goal, so any returned result is empty. -/
lemma aStarLoop_goal_blocked (width height : Nat) (snake : List Pos) (start goal : Pos)
    (hocc : goal ∈ snake) (hne : goal ≠ start) :
    ∀ (fuel : Nat) (σ : AStarState) (r : List Pos), AInv width height snake start σ →
      aStarLoop width height snake goal fuel σ = some r → r = [] := by
  intro fuel
  induction fuel with
  | zero =>
    intro σ r _ h
    simp [aStarLoop] at h
  | succ f ih =>
    intro σ r hA h
    cases hme : minEntry σ.open_set with
    | none =>
      rw [aStarLoop_succ_none width height snake goal f σ hme] at h
      exact (Option.some_inj.mp h).symm
    | some e =>
      by_cases hg : e.2 = goal
      · exfalso
        obtain ⟨v, hv, _⟩ := hA.open_dom e (minEntry_mem _ _ hme)
        rw [hg] at hv
        rcases hA.dom_free goal (by rw [hv]; rfl) with h1 | h2
        · exact hne h1
        · exact h2.2 hocc
      · rw [aStarLoop_succ_step width height snake goal f σ e hme hg] at h
        exact ih _ r (ainv_step width height snake start goal σ e hA
          (minEntry_mem _ _ hme)) h

/-! ### Claims about the pathfinder -/

/-- Claim C1: when a_star_pathfind returns a non-empty path, its length is
exactly the shortest snake-avoiding in-bounds 4-connected distance from
start to goal as computed by the reference BFS. -/
theorem claim1_astar_optimal (width height : Nat) (snake : List Pos) (start goal : Pos)
    (hne : a_star_pathfind width height snake start goal ≠ []) :
    specBFSDistance width height snake start goal =
      some (a_star_pathfind width height snake start goal).length := by
  classical
  obtain ⟨r, hr⟩ := Option.isSome_iff_exists.mp
    (aStarLoop_isSome width height snake start goal (astarFuel width height)
      (aStarInit start goal) (ainv_init width height snake start goal)
      (measure_init_lt width height start goal))
  have hav : a_star_pathfind width height snake start goal = r := by
    unfold a_star_pathfind
    rw [hr]
    rfl
  rw [hav] at hne ⊢
  rcases aStarLoop_sound width height snake start goal _ _ r
      (ainv_init width height snake start goal) hr with hempty | ⟨hVP, _, _, hrlen⟩
  · exact absurd hempty hne
  have hP : ∃ n, ∃ l, ValidPath width height snake start l goal ∧ l.length = n :=
    ⟨r.length, r, hVP, rfl⟩
  obtain ⟨π, hπ, hπlen⟩ := Nat.find_spec hP
  have hmin : ∀ l, ValidPath width height snake start l goal → π.length ≤ l.length := by
    intro l hl
    rw [hπlen]
    exact Nat.find_min' hP ⟨l, hl, rfl⟩
  have hopt := aStarLoop_opt width height snake start goal π hπ hmin _ _ r
    (ainv_init width height snake start goal) (optInv_init start goal π)
    (goalInv_init start goal) hr
  have hlen_eq : r.length = π.length := le_antisymm hopt.1 (hmin r hVP)
  unfold specBFSDistance
  apply bfsSearch_finds
  · omega
  · omega
  · exact (mem_specReach width height snake start r.length goal).mpr ⟨r, hVP, le_rfl⟩
  · intro j _ hj hmem
    obtain ⟨l, hl, hlen⟩ := (mem_specReach width height snake start j goal).mp hmem
    have := hmin l hl
    omega

/-- Claim C2 (amended): every returned path visits only free in-bounds
cells, consecutive cells (including the start) are 4-adjacent, a non-empty
path ends at the goal and excludes the start, and the result is empty
exactly when no snake-avoiding path exists or the start already equals the
goal. -/
theorem claim2_astar_path_shape (width height : Nat) (snake : List Pos) (start goal : Pos) :
    (∀ c ∈ a_star_pathfind width height snake start goal, FreeCell width height snake c) ∧
    List.Chain' IsAdjacent (start :: a_star_pathfind width height snake start goal) ∧
    (a_star_pathfind width height snake start goal ≠ [] →
      (a_star_pathfind width height snake start goal).getLast? = some goal ∧
      start ∉ a_star_pathfind width height snake start goal) ∧
    (a_star_pathfind width height snake start goal = [] ↔
      (¬ ∃ l, ValidPath width height snake start l goal) ∨ start = goal) := by
  classical
  obtain ⟨r, hr⟩ := Option.isSome_iff_exists.mp
    (aStarLoop_isSome width height snake start goal (astarFuel width height)
      (aStarInit start goal) (ainv_init width height snake start goal)
      (measure_init_lt width height start goal))
  have hav : a_star_pathfind width height snake start goal = r := by
    unfold a_star_pathfind
    rw [hr]
    rfl
  rw [hav]
  rcases aStarLoop_sound width height snake start goal _ _ r
      (ainv_init width height snake start goal) hr with hempty | ⟨hVP, hlast, hstart, _⟩
  · subst hempty
    refine ⟨by simp, by simp, by simp, ?_⟩
    constructor
    · intro _
      by_contra hcon
      push_neg at hcon
      obtain ⟨⟨l0, hl0⟩, hsg⟩ := hcon
      have hP : ∃ n, ∃ l, ValidPath width height snake start l goal ∧ l.length = n :=
        ⟨l0.length, l0, hl0, rfl⟩
      obtain ⟨π, hπ, hπlen⟩ := Nat.find_spec hP
      have hmin : ∀ l, ValidPath width height snake start l goal → π.length ≤ l.length := by
        intro l hl
        rw [hπlen]
        exact Nat.find_min' hP ⟨l, hl, rfl⟩
      have hopt := aStarLoop_opt width height snake start goal π hπ hmin _ _ []
        (ainv_init width height snake start goal) (optInv_init start goal π)
        (goalInv_init start goal) hr
      exact hsg (hopt.2 rfl)
    · intro _
      rfl
  · have hrne : r ≠ [] := by
      intro hre
      rw [hre] at hlast
      simp at hlast
    refine ⟨validPath_mem_free width height snake r start goal hVP,
      validPath_chain width height snake r start goal hVP,
      fun _ => ⟨hlast, hstart⟩, ?_⟩
    constructor
    · intro hre
      exact absurd hre hrne
    · rintro (hnop | hsg)
      · exact absurd ⟨r, hVP⟩ hnop
      · rw [← hsg] at hav
        rw [astar_self width height snake start] at hav
        exact hav.symm

/-- Claim C9 (amended): a node of the search graph is blocked exactly when
the snake occupies it, with no exception for the goal: an occupied goal
distinct from the start is never entered, and the search returns the empty
path. -/
theorem claim9_goal_is_blocked (width height : Nat) (snake : List Pos) (start goal : Pos)
    (hocc : goal ∈ snake) (hne : goal ≠ start) :
    (∀ q p : Pos, p ∈ get_neighbors width height snake q ↔
      IsAdjacent q p ∧ InBounds width height p ∧ p ∉ snake) ∧
    a_star_pathfind width height snake start goal = [] := by
  constructor
  · intro q p
    rw [mem_get_neighbors width height snake q p]
    unfold FreeCell
    tauto
  · unfold a_star_pathfind
    cases hl : aStarLoop width height snake goal (astarFuel width height)
        (aStarInit start goal) with
    | none => rfl
    | some r =>
      have := aStarLoop_goal_blocked width height snake start goal hocc hne _ _ r
        (ainv_init width height snake start goal) hl
      simpa using this

/-- Claim C10: with start equal to goal the function returns the empty
sequence, the same value it returns when no path exists, so success at
distance zero and failure are indistinguishable from the result alone. -/
theorem claim10_start_eq_goal (width height : Nat) (snake : List Pos) (start : Pos) :
    a_star_pathfind width height snake start start = [] :=
  astar_self width height snake start

/-! ### Counterexamples for the corrected claims -/

/-- Counterexample to claim C2 as stated: on an empty 2 by 2 board with
start = goal = (0,0) the function returns the empty path although the goal
is reachable (by the empty path), so "empty exactly when the frontier is
exhausted without reaching the goal" fails. -/
theorem claim2_counterexample :
    ¬ ((a_star_pathfind 2 2 [] (0, 0) (0, 0) = []) ↔
      ¬ ∃ l, ValidPath 2 2 [] (0, 0) l (0, 0)) := by
  intro h
  have h1 : a_star_pathfind 2 2 [] (0, 0) (0, 0) = [] := astar_self 2 2 [] (0, 0)
  exact (h.mp h1) ⟨[], rfl⟩

/-- Counterexample to claim C9 as stated: on a 3 by 1 board with the snake
on the goal cell (2,0), the search returns no path at all, although with
the goal cell unoccupied the cells before it are reachable — the goal cell
is blocked like any other snake cell. -/
theorem claim9_counterexample :
    a_star_pathfind 3 1 [(2, 0)] (0, 0) (2, 0) = [] ∧
    ((2, 0) : Pos) ∈ ([(2, 0)] : List Pos) ∧
    ∃ l, l ≠ [] ∧ ValidPath 3 1 [] (0, 0) l (2, 0) := by
  refine ⟨by decide, by decide, [(1, 0), (2, 0)], by decide, ?_⟩
  exact ⟨by decide, by decide, rfl⟩

/-! ### Witnesses -/

/-- The head-picking function indeed picks a member of any non-empty list. -/
theorem pickHead_mem (l : List Pos) (hl : l ≠ []) : pickHead l ∈ l := by
  cases l with
  | nil => exact absurd rfl hl
  | cons a t => exact List.mem_cons_self a t

/-- Witness for claim C1 on a concrete 3 by 1 board. -/
theorem claim1_witness :
    a_star_pathfind 3 1 [] (0, 0) (2, 0) ≠ [] ∧
    specBFSDistance 3 1 [] (0, 0) (2, 0) =
      some (a_star_pathfind 3 1 [] (0, 0) (2, 0)).length :=
  ⟨by decide, claim1_astar_optimal 3 1 [] (0, 0) (2, 0) (by decide)⟩

/-- Witness for claim C3 on a 2 by 2 board with the head at (0,0): Down
and Right are legal with equal flood-fill counts, and the first of them in
enumeration order is returned. -/
theorem claim3_witness :
    (([((0 : Int), (0 : Int))] : List Pos) ≠ []) ∧
    ((get_safe_direction 2 2 [((0 : Int), (0 : Int))] = none ↔
      ∀ d ∈ safeDirections,
        ¬ safeLegal 2 2 [((0 : Int), (0 : Int))]
          (([((0 : Int), (0 : Int))] : List Pos).headI) d) ∧
    (∀ dd, get_safe_direction 2 2 [((0 : Int), (0 : Int))] = some dd →
      dd ∈ safeDirections ∧
      safeLegal 2 2 [((0 : Int), (0 : Int))]
        (([((0 : Int), (0 : Int))] : List Pos).headI) dd ∧
      FreeCell 2 2 [((0 : Int), (0 : Int))]
        ((([((0 : Int), (0 : Int))] : List Pos).headI.1 + dd.1,
          ([((0 : Int), (0 : Int))] : List Pos).headI.2 + dd.2)) ∧
      (∀ e ∈ safeDirections,
        safeLegal 2 2 [((0 : Int), (0 : Int))]
          (([((0 : Int), (0 : Int))] : List Pos).headI) e →
        safeScore 2 2 [((0 : Int), (0 : Int))]
          (([((0 : Int), (0 : Int))] : List Pos).headI) e ≤
          safeScore 2 2 [((0 : Int), (0 : Int))]
            (([((0 : Int), (0 : Int))] : List Pos).headI) dd) ∧
      ∃ l₁ l₂, safeDirections = l₁ ++ dd :: l₂ ∧
        ∀ e ∈ l₁, safeLegal 2 2 [((0 : Int), (0 : Int))]
          (([((0 : Int), (0 : Int))] : List Pos).headI) e →
          safeScore 2 2 [((0 : Int), (0 : Int))]
            (([((0 : Int), (0 : Int))] : List Pos).headI) e <
            safeScore 2 2 [((0 : Int), (0 : Int))]
              (([((0 : Int), (0 : Int))] : List Pos).headI) dd)) :=
  ⟨by decide, claim3_get_safe_direction_spec 2 2 [((0 : Int), (0 : Int))] (by decide)⟩

/-- Witness for claim C5: the head at (1,0) of a 2 by 2 board moving right
hits the wall. -/
theorem claim5_witness :
    exampleGame2.state = GameState.PLAYING ∧ exampleGame2.snake ≠ [] ∧
    (¬ InBounds exampleGame2.width exampleGame2.height (nextHead exampleGame2) ∨
      nextHead exampleGame2 ∈ exampleGame2.snake) ∧
    ((update pickHead exampleGame2).state = GameState.GAME_OVER ∧
    (update pickHead exampleGame2).snake = exampleGame2.snake ∧
    (update pickHead exampleGame2).score = exampleGame2.score ∧
    (update pickHead exampleGame2).food = exampleGame2.food ∧
    (update pickHead exampleGame2).moves_without_food =
      exampleGame2.moves_without_food) :=
  ⟨rfl, by decide, Or.inl (by decide),
    claim5_collision_game_over pickHead exampleGame2 rfl (by decide) (Or.inl (by decide))⟩

/-- Witness for claim C6: eating the food directly ahead. -/
theorem claim6_witness :
    exampleGame3.state = GameState.PLAYING ∧ exampleGame3.snake ≠ [] ∧
    InBounds exampleGame3.width exampleGame3.height (nextHead exampleGame3) ∧
    nextHead exampleGame3 ∉ exampleGame3.snake ∧
    exampleGame3.food = some (nextHead exampleGame3) ∧
    (update pickHead exampleGame3 =
      generate_food pickHead
        { applyDirection exampleGame3 with
            snake := nextHead exampleGame3 :: exampleGame3.snake,
            score := exampleGame3.score + 1, moves_without_food := 0 } ∧
    (update pickHead exampleGame3).score = exampleGame3.score + 1 ∧
    (update pickHead exampleGame3).snake = nextHead exampleGame3 :: exampleGame3.snake ∧
    (update pickHead exampleGame3).snake.length = exampleGame3.snake.length + 1 ∧
    (update pickHead exampleGame3).moves_without_food = 0) :=
  ⟨rfl, by decide, by decide, by decide, by decide,
    claim6_eating_grows pickHead exampleGame3 rfl (by decide) (by decide) (by decide)
      (by decide)⟩

/-- Witness for claim C7: an ordinary non-eating step of a one-cell snake. -/
theorem claim7_witness :
    exampleGame4.state = GameState.PLAYING ∧ exampleGame4.snake ≠ [] ∧
    InBounds exampleGame4.width exampleGame4.height (nextHead exampleGame4) ∧
    nextHead exampleGame4 ∉ exampleGame4.snake ∧
    exampleGame4.food ≠ some (nextHead exampleGame4) ∧
    exampleGame4.max_moves_without_food = exampleGame4.width * exampleGame4.height ∧
    ((update pickHead exampleGame4).snake =
      (nextHead exampleGame4 :: exampleGame4.snake).dropLast ∧
    (update pickHead exampleGame4).snake.length = exampleGame4.snake.length ∧
    (update pickHead exampleGame4).moves_without_food =
      exampleGame4.moves_without_food + 1 ∧
    ((update pickHead exampleGame4).state = GameState.GAME_OVER ↔
      exampleGame4.width * exampleGame4.height <
        exampleGame4.moves_without_food + 1)) :=
  ⟨rfl, by decide, by decide, by decide, by decide, rfl,
    claim7_starvation_step pickHead exampleGame4 rfl (by decide) (by decide) (by decide)
      (by decide) rfl⟩

/-- Witness for claim C8: board 1 by 2 with a single free cell (0,1). -/
theorem claim8_witness :
    (∀ l : List Pos, l ≠ [] → pickHead l ∈ l) ∧
    exampleGame5.state = GameState.PLAYING ∧
    (((∃ p, FreeCell exampleGame5.width exampleGame5.height exampleGame5.snake p) →
      ∃ c, (generate_food pickHead exampleGame5).food = some c ∧
        FreeCell exampleGame5.width exampleGame5.height exampleGame5.snake c) ∧
    (∀ c₀, (∀ p, FreeCell exampleGame5.width exampleGame5.height exampleGame5.snake p ↔
        p = c₀) →
      (generate_food pickHead exampleGame5).food = some c₀) ∧
    ((generate_food pickHead exampleGame5).food = none ↔
      ∀ p, InBounds exampleGame5.width exampleGame5.height p → p ∈ exampleGame5.snake) ∧
    ((generate_food pickHead exampleGame5).state = GameState.GAME_OVER ↔
      ∀ p, InBounds exampleGame5.width exampleGame5.height p → p ∈ exampleGame5.snake)) :=
  ⟨pickHead_mem, rfl,
    claim8_generate_food_spec pickHead exampleGame5 (pickHead_mem) rfl⟩

/-- Witness for the amended claim C9 on the 3 by 1 board. -/
theorem claim9_witness :
    ((2, 0) : Pos) ∈ ([(2, 0)] : List Pos) ∧ ((2, 0) : Pos) ≠ (0, 0) ∧
    ((∀ q p : Pos, p ∈ get_neighbors 3 1 [(2, 0)] q ↔
      IsAdjacent q p ∧ InBounds 3 1 p ∧ p ∉ ([(2, 0)] : List Pos)) ∧
    a_star_pathfind 3 1 [(2, 0)] (0, 0) (2, 0) = []) :=
  ⟨by decide, by decide, claim9_goal_is_blocked 3 1 [(2, 0)] (0, 0) (2, 0)
    (by decide) (by decide)⟩

end Snake
